import Mathlib

/-!
# Verification of the grid-pathfinding and sliding-puzzle search engine

This file gives a shallow embedding of the repository's core code:

* `grid.py` — the `Grid` data structure (`get_cell`, `set_cell`, `is_valid`,
  `get_neighbors`);
* `algorithms.py` — the four search algorithms `bfs`, `dfs`, `astar`,
  `dijkstra` and their `PathfindingResult`;
* `puzzle_logic.py` — the `Puzzle` class (`find_empty`, `get_valid_moves`,
  `make_move`, `is_solvable`);
* `bfs_solver.py` — `BFSSolver.solve`.

Mutation is modelled by explicit state passing, Python dicts by functions
into `Option`, the `heapq` priority queue by a list together with
minimum-extraction under the lexicographic order Python uses on tuples,
and the unbounded `while` loops by fuel that is large enough for every
terminating run (each loop iteration removes one element from the
frontier, and the number of insertions is bounded by the grid area).
-/

namespace SearchEngine

/-- `CellType` enum from `grid.py`. -/
inductive CellType where
  | EMPTY
  | WALL
  | START
  | END
  | VISITED
  | PATH
  | EXPLORING
deriving DecidableEq, Repr

/-- Positions are `(row, col)` pairs of Python ints. -/
abbrev Pos := Int × Int

/-- The `Grid` class from `grid.py`.  The rectangular `rows × cols` array
`self.grid` is modelled as a total function on integer coordinates; only
values at in-bounds coordinates are ever read or written by the embedded
operations, matching the bounds discipline of the source. -/
structure Grid where
  rows : Nat
  cols : Nat
  cells : Int → Int → CellType
  start_pos : Option Pos
  end_pos : Option Pos

namespace Grid

/-- `Grid.__init__`: all cells empty, no start/end position. -/
def mk' (rows cols : Nat) : Grid :=
  ⟨rows, cols, fun _ _ => CellType.EMPTY, none, none⟩

/-- In-bounds test `0 <= row < self.rows and 0 <= col < self.cols`. -/
def inB (g : Grid) (row col : Int) : Prop :=
  0 ≤ row ∧ row < (g.rows : Int) ∧ 0 ≤ col ∧ col < (g.cols : Int)

instance (g : Grid) (row col : Int) : Decidable (g.inB row col) := by
  unfold inB; infer_instance

/-- Pointwise update of the cell array (`self.grid[row][col] = v`). -/
def upd (f : Int → Int → CellType) (row col : Int) (v : CellType) :
    Int → Int → CellType :=
  fun x y => if x = row ∧ y = col then v else f x y

/-- `Grid.get_cell`: returns the cell at an in-bounds position and `WALL`
for any out-of-bounds position. -/
def get_cell (g : Grid) (row col : Int) : CellType :=
  if g.inB row col then g.cells row col else CellType.WALL

/-- `Grid.set_cell`, transcribed branch by branch.  The source first
dispatches on the new cell type (clearing markers), then runs a final
guarded write that skips cells currently marked `START` or `END`. -/
def set_cell (g : Grid) (row col : Int) (cell_type : CellType) : Grid :=
  if g.inB row col then
    let g1 : Grid :=
      if cell_type = CellType.WALL then
        -- clear the start/end position field if this cell carried it
        let g' : Grid :=
          if g.cells row col = CellType.START then { g with start_pos := none }
          else if g.cells row col = CellType.END then { g with end_pos := none }
          else g
        { g' with cells := upd g'.cells row col CellType.WALL }
      else if cell_type = CellType.START then
        -- clear the old start marker elsewhere, then claim this position
        let g' : Grid :=
          match g.start_pos with
          | some (or, oc) =>
              if g.cells or oc = CellType.START then
                { g with cells := upd g.cells or oc CellType.EMPTY }
              else g
          | none => g
        let g'' : Grid := { g' with start_pos := some (row, col) }
        if g''.cells row col ≠ CellType.END then
          { g'' with cells := upd g''.cells row col CellType.START }
        else g''
      else if cell_type = CellType.END then
        -- clear the old end marker elsewhere; the grid write happens below
        let g' : Grid :=
          match g.end_pos with
          | some (or, oc) =>
              if g.cells or oc = CellType.END then
                { g with cells := upd g.cells or oc CellType.EMPTY }
              else g
          | none => g
        { g' with end_pos := some (row, col) }
      else g
    if g1.cells row col ≠ CellType.START ∧ g1.cells row col ≠ CellType.END then
      { g1 with cells := upd g1.cells row col cell_type }
    else g1
  else g

/-- `Grid.is_valid`: in bounds and not a wall. -/
def is_valid (g : Grid) (row col : Int) : Prop :=
  g.inB row col ∧ g.cells row col ≠ CellType.WALL

instance (g : Grid) (row col : Int) : Decidable (g.is_valid row col) := by
  unfold is_valid; infer_instance

/-- The direction list `[(0, 1), (1, 0), (0, -1), (-1, 0)]` used by
`get_neighbors` (4-directional; every call site passes `diagonal=False`). -/
def directions : List (Int × Int) := [(0, 1), (1, 0), (0, -1), (-1, 0)]

/-- `Grid.get_neighbors` (4-directional): the loop appends
`(row+dr, col+dc)` exactly when it is valid, i.e. the valid entries of the
offset list in direction order. -/
def get_neighbors (g : Grid) (row col : Int) : List Pos :=
  (directions.map (fun d => (row + d.1, col + d.2))).filter
    (fun p => decide (g.is_valid p.1 p.2))

end Grid

/-! ## `algorithms.py` — data structures shared by the four algorithms -/

/-- `PathfindingResult` from `algorithms.py`. -/
structure PathfindingResult where
  path : List Pos
  visited : List Pos
  exploring : List Pos
  found : Bool
  path_length : Nat
  nodes_explored : Nat
deriving DecidableEq, Repr

/-- A fresh `PathfindingResult()`. -/
def PathfindingResult.init : PathfindingResult := ⟨[], [], [], false, 0, 0⟩

/-- A completed run together with two ghost event logs that are not part of
the source's result object: `settleLog` records states in the order they are
taken off the frontier and processed, `pushLog` records states in the order
the source pushes them onto the frontier (the initial seeding of the start
state is not part of `pushLog`).  They are used only to state trace-order
properties. -/
structure RunResult where
  res : PathfindingResult
  settleLog : List Pos
  pushLog : List Pos
deriving DecidableEq, Repr

/-- Parent / predecessor maps (`parent` and `came_from` dicts): a Python
dict mapping positions to `position | None`. -/
def Pmap := Pos → Option (Option Pos)

/-- Dict update `m[k] = v`. -/
def pupd (m : Pmap) (k : Pos) (v : Option Pos) : Pmap :=
  fun x => if x = k then some v else m x

/-- The reconstruction loop `while node is not None: path.append(node);
node = parent[node]`, with fuel.  Every use supplies fuel exceeding the
length of the predecessor chain, so the fuel-out branch is never taken in
a run that the source performs. -/
def walkParent : Nat → Pmap → Pos → List Pos
  | 0, _, _ => []
  | fuel + 1, par, node =>
    node ::
      (match par node with
       | some (some p) => walkParent fuel par p
       | _ => [])

/-! ### The `heapq` frontier

Python's `heapq` holds tuples `(priority, (row, col))` and always pops a
minimal tuple under lexicographic comparison.  Equal tuples are identical
values, so extracting any minimum yields the same popped value and the same
remaining multiset; we model the heap as a list, `heappush` as appending and
`heappop` as removing a minimal element. -/

abbrev Entry := Nat × Pos

/-- Lexicographic order on heap entries `(priority, (row, col))`, exactly the
tuple comparison Python's heap uses. -/
def entryLe (a b : Entry) : Prop :=
  a.1 < b.1 ∨ (a.1 = b.1 ∧ (a.2.1 < b.2.1 ∨ (a.2.1 = b.2.1 ∧ a.2.2 ≤ b.2.2)))

instance : DecidableRel entryLe := by
  unfold entryLe; infer_instance

/-- Select a minimal entry, scanning with an accumulator. -/
def findMinE (l : List Entry) (m : Entry) : Entry :=
  l.foldl (fun m x => if entryLe x m then x else m) m

/-- `heappop`: pop a minimal entry, returning it and the remaining heap. -/
def popMin (l : List Entry) : Option (Entry × List Entry) :=
  match l with
  | [] => none
  | x :: xs =>
    let m := findMinE xs x
    some (m, (x :: xs).erase m)

/-! ### The shared priority-queue loop (`astar` and `dijkstra`)

`astar` and `dijkstra` in `algorithms.py` are the same lazy-deletion loop;
they differ in the heuristic term added to pushed priorities (`dijkstra`
adds nothing) and in the expression for the relaxation base (`astar` reads
`g_score[current]`, `dijkstra` reuses the popped priority `current_dist`).
The loop is therefore written once, parameterized by the heuristic `h` and
by `baseOf`, the source expression producing that base value.  The fields
of `PqSt` are named after `astar`; for `dijkstra`, `g_score` is its
`distances` dict and `came_from` its `parent` dict. -/

structure PqSt where
  open_set : List Entry
  came_from : Pmap
  g_score : Pos → Option Nat
  visited_set : List Pos
  vtrace : List Pos
  etrace : List Pos
  pushLog : List Pos
  settleLog : List Pos

/-- Result assembly for a run that ends with an empty (or exhausted)
frontier: `found` stays false, traces are returned as produced. -/
def pqUnfound (st : PqSt) : RunResult :=
  ⟨{ PathfindingResult.init with
      visited := st.vtrace
      exploring := st.etrace
      nodes_explored := st.visited_set.length },
    st.settleLog, st.pushLog⟩

/-- Result assembly when the end state is dequeued: reconstruct the path
through the predecessor map and reverse it.  The reconstruction fuel
`visited_set.length + 1` exceeds the predecessor chain length (the chain
visits distinct settled states). -/
def pqFound (st : PqSt) (e : Pos) : RunResult :=
  let path := (walkParent (st.visited_set.length + 1) st.came_from e).reverse
  ⟨{ path := path
     visited := st.vtrace
     exploring := st.etrace
     found := true
     path_length := path.length - 1
     nodes_explored := st.visited_set.length },
    st.settleLog, st.pushLog⟩

/-- The neighbor relaxation loop shared by `astar` and `dijkstra`:
`tentative = base + 1`; push and record the neighbor when it is undiscovered
or strictly improved.  (`astar` additionally stores `tentative + h n` in its
write-only `f_score` dict — the pushed priority below — so the dict itself
is not modelled separately.) -/
def pqRelax (g : Grid) (h : Pos → Nat) (base : Nat) (cur : Pos) (st : PqSt) :
    PqSt :=
  (g.get_neighbors cur.1 cur.2).foldl
    (fun st n =>
      if n ∈ st.visited_set then st
      else
        let tentative := base + 1
        if (st.g_score n).isNone ∨ tentative < (st.g_score n).getD 0 then
          { st with
            came_from := pupd st.came_from n (some cur)
            g_score := fun x => if x = n then some tentative else st.g_score x
            open_set := st.open_set ++ [(tentative + h n, n)]
            vtrace := if n ∈ st.vtrace then st.vtrace else st.vtrace ++ [n]
            pushLog := st.pushLog ++ [n] }
        else st)
    st

/-- The `while open_set:` loop of `astar` / the `while pq:` loop of
`dijkstra`, with fuel.  Each iteration pops one entry; a stale entry whose
state is already settled is discarded (lazy deletion). -/
def pqLoop (g : Grid) (e : Pos) (h : Pos → Nat)
    (baseOf : Nat → PqSt → Pos → Nat) :
    Nat → PqSt → RunResult
  | 0, st => pqUnfound st
  | fuel + 1, st =>
    match popMin st.open_set with
    | none => pqUnfound st
    | some (entry, rest) =>
      let st1 := { st with open_set := rest }
      if entry.2 ∈ st1.visited_set then pqLoop g e h baseOf fuel st1
      else
        let st2 := { st1 with
          visited_set := st1.visited_set ++ [entry.2]
          etrace := st1.etrace ++ [entry.2]
          settleLog := st1.settleLog ++ [entry.2] }
        if entry.2 = e then pqFound st2 e
        else pqLoop g e h baseOf fuel (pqRelax g h (baseOf entry.1 st2 entry.2) entry.2 st2)

/-- Fuel that dominates every priority-queue run: at most one push per
neighbor edge of each settled state plus the seed, and one pop per
iteration. -/
def pqFuel (g : Grid) : Nat := 4 * g.rows * g.cols + 5

/-- Entry guard and initial state shared by `astar` and `dijkstra`:
seed entry `(0, start)`, score dict `{start: 0}`, predecessor `{start: None}`. -/
def pqRun (g : Grid) (s e : Pos) (h : Pos → Nat)
    (baseOf : Nat → PqSt → Pos → Nat) : RunResult :=
  if g.is_valid s.1 s.2 ∧ g.is_valid e.1 e.2 then
    pqLoop g e h baseOf (pqFuel g)
      { open_set := [(0, s)]
        came_from := pupd (fun _ => none) s none
        g_score := fun x => if x = s then some 0 else none
        visited_set := []
        vtrace := []
        etrace := []
        pushLog := []
        settleLog := [] }
  else ⟨PathfindingResult.init, [], []⟩

/-- Manhattan-distance `heuristic` from `algorithms.py`, here taken to the
fixed end position. -/
def manhattan (e p : Pos) : Nat :=
  (p.1 - e.1).natAbs + (p.2 - e.2).natAbs

/-- `astar`: the priority-queue loop with the Manhattan heuristic; the
relaxation base is `g_score[current]`. -/
def astarRun (g : Grid) (s e : Pos) : RunResult :=
  pqRun g s e (manhattan e) (fun _ st cur => (st.g_score cur).getD 0)

def astar (g : Grid) (s e : Pos) : PathfindingResult := (astarRun g s e).res

/-- `dijkstra`: the priority-queue loop with no heuristic; the relaxation
base is the popped priority `current_dist`. -/
def dijkstraRun (g : Grid) (s e : Pos) : RunResult :=
  pqRun g s e (fun _ => 0) (fun pr _ _ => pr)

def dijkstra (g : Grid) (s e : Pos) : PathfindingResult := (dijkstraRun g s e).res

/-! ### `bfs` and `dfs`

Both mark states visited at the moment they enter the frontier; they differ
only in the frontier discipline (FIFO deque vs. LIFO stack). -/

structure BfsSt where
  queue : List Pos
  vset : List Pos
  par : Pmap
  vtrace : List Pos
  etrace : List Pos
  pushLog : List Pos
  settleLog : List Pos

/-- Result assembly after `while queue:` ends without reaching the end
state: `nodes_explored = len(visited)`. -/
def bfsUnfound (st : BfsSt) : RunResult :=
  ⟨{ PathfindingResult.init with
      visited := st.vtrace
      exploring := st.etrace
      nodes_explored := st.vset.length },
    st.settleLog, st.pushLog⟩

/-- Result assembly when the end state is dequeued. -/
def bfsFound (st : BfsSt) (e : Pos) : RunResult :=
  let path := (walkParent (st.vset.length + 1) st.par e).reverse
  ⟨{ path := path
     visited := st.vtrace
     exploring := st.etrace
     found := true
     path_length := path.length - 1
     nodes_explored := st.vset.length },
    st.settleLog, st.pushLog⟩

/-- The `for neighbor in grid.get_neighbors(*current)` body of `bfs`:
undiscovered neighbors are marked visited, given a parent, enqueued at the
back of the deque and appended to `result.visited`. -/
def bfsRelax (g : Grid) (cur : Pos) (st : BfsSt) : BfsSt :=
  (g.get_neighbors cur.1 cur.2).foldl
    (fun st n =>
      if n ∈ st.vset then st
      else
        { st with
          vset := st.vset ++ [n]
          par := pupd st.par n (some cur)
          queue := st.queue ++ [n]
          vtrace := st.vtrace ++ [n]
          pushLog := st.pushLog ++ [n] })
    st

/-- The `while queue:` loop of `bfs`: pop from the front (FIFO). -/
def bfsLoop (g : Grid) (e : Pos) : Nat → BfsSt → RunResult
  | 0, st => bfsUnfound st
  | fuel + 1, st =>
    match st.queue with
    | [] => bfsUnfound st
    | cur :: rest =>
      let st1 := { st with
        queue := rest
        etrace := st.etrace ++ [cur]
        settleLog := st.settleLog ++ [cur] }
      if cur = e then bfsFound st1 e
      else bfsLoop g e fuel (bfsRelax g cur st1)

/-- Fuel dominating every BFS/DFS run: each state enters the frontier at
most once, so the loop runs at most `rows*cols + 1` iterations. -/
def bfsFuel (g : Grid) : Nat := g.rows * g.cols + 2

def bfsInit (s : Pos) : BfsSt :=
  { queue := [s]
    vset := [s]
    par := pupd (fun _ => none) s none
    vtrace := []
    etrace := []
    pushLog := []
    settleLog := [] }

/-- `bfs` from `algorithms.py`. -/
def bfsRun (g : Grid) (s e : Pos) : RunResult :=
  if g.is_valid s.1 s.2 ∧ g.is_valid e.1 e.2 then
    bfsLoop g e (bfsFuel g) (bfsInit s)
  else ⟨PathfindingResult.init, [], []⟩

def bfs (g : Grid) (s e : Pos) : PathfindingResult := (bfsRun g s e).res

/-- The stack push of `dfs`: the Python list is used as a stack
(`append`/`pop()`), modelled with the head of the list as the top. -/
def dfsRelax (g : Grid) (cur : Pos) (st : BfsSt) : BfsSt :=
  (g.get_neighbors cur.1 cur.2).foldl
    (fun st n =>
      if n ∈ st.vset then st
      else
        { st with
          vset := st.vset ++ [n]
          par := pupd st.par n (some cur)
          queue := n :: st.queue
          vtrace := st.vtrace ++ [n]
          pushLog := st.pushLog ++ [n] })
    st

/-- The `while stack:` loop of `dfs`: pop the most recently pushed state. -/
def dfsLoop (g : Grid) (e : Pos) : Nat → BfsSt → RunResult
  | 0, st => bfsUnfound st
  | fuel + 1, st =>
    match st.queue with
    | [] => bfsUnfound st
    | cur :: rest =>
      let st1 := { st with
        queue := rest
        etrace := st.etrace ++ [cur]
        settleLog := st.settleLog ++ [cur] }
      if cur = e then bfsFound st1 e
      else dfsLoop g e fuel (dfsRelax g cur st1)

/-- `dfs` from `algorithms.py`. -/
def dfsRun (g : Grid) (s e : Pos) : RunResult :=
  if g.is_valid s.1 s.2 ∧ g.is_valid e.1 e.2 then
    dfsLoop g e (bfsFuel g) (bfsInit s)
  else ⟨PathfindingResult.init, [], []⟩

def dfs (g : Grid) (s e : Pos) : PathfindingResult := (dfsRun g s e).res

/-! ## `puzzle_logic.py` — the `Puzzle` class

`self.size` always equals `len(self.state)` (the constructor either
generates a square board of the requested size or infers the size from the
given state), so the embedding stores only the board. -/

structure Puzzle where
  state : List (List Nat)
deriving DecidableEq, Repr

namespace Puzzle

def size (p : Puzzle) : Nat := p.state.length

/-- Read `self.state[i][j]` at natural indices (all reads of the source at
natural indices are in range for well-formed boards; the default is
arbitrary and unreachable there). -/
def cellAt (p : Puzzle) (i j : Nat) : Nat := (p.state.getD i []).getD j 0

/-- `_generate_goal_state`: the counter `num` placed at row `i`, column `j`
has the value `i*size + j + 1`, blank in the last cell. -/
def goalState (size : Nat) : List (List Nat) :=
  (List.range size).map (fun i =>
    (List.range size).map (fun j =>
      if i * size + j + 1 ≤ size * size - 1 then i * size + j + 1 else 0))

/-- `Puzzle.is_goal`. -/
def isGoal (p : Puzzle) : Bool := decide (p.state = goalState p.size)

/-- `Puzzle.find_empty`: the first `(i, j)` in row-major order with
`state[i][j] == 0`, else the sentinel `(-1, -1)`. -/
def findEmpty (p : Puzzle) : Int × Int :=
  match (List.range p.size).findSome? (fun i =>
      ((List.range p.size).find? (fun j => cellAt p i j == 0)).map
        (fun j => ((i : Int), (j : Int)))) with
  | some rc => rc
  | none => (-1, -1)

/-- `Puzzle.get_valid_moves`, in the source's order
`up`, `down`, `left`, `right`. -/
def getValidMoves (p : Puzzle) : List String :=
  let rc := findEmpty p
  (if rc.1 > 0 then ["up"] else []) ++
  (if rc.1 < (p.size : Int) - 1 then ["down"] else []) ++
  (if rc.2 > 0 then ["left"] else []) ++
  (if rc.2 < (p.size : Int) - 1 then ["right"] else [])

/-- Python list indexing: in-range indices map directly, negative indices
wrap once from the end, anything else raises (unreachable here). -/
def pyIdx (len : Nat) (i : Int) : Option Nat :=
  if 0 ≤ i ∧ i < (len : Int) then some i.toNat
  else if -(len : Int) ≤ i ∧ i < 0 then some (i + len).toNat
  else none

/-- `state[i][j]` with Python indexing semantics. -/
def pyGet2 (s : List (List Nat)) (i j : Int) : Nat :=
  match pyIdx s.length i with
  | some k =>
    let row := s.getD k []
    match pyIdx row.length j with
    | some l => row.getD l 0
    | none => 0
  | none => 0

/-- `state[i][j] = v` with Python indexing semantics. -/
def pySet2 (s : List (List Nat)) (i j : Int) (v : Nat) : List (List Nat) :=
  match pyIdx s.length i with
  | some k =>
    let row := s.getD k []
    match pyIdx row.length j with
    | some l => s.set k (row.set l v)
    | none => s
  | none => s

/-- `Puzzle.make_move`: reject a direction not in `get_valid_moves`,
otherwise swap the blank with the adjacent tile (the right-hand side of the
Python tuple assignment is evaluated before either cell is written). -/
def makeMove (p : Puzzle) (direction : String) : Bool × Puzzle :=
  if direction ∉ getValidMoves p then (false, p)
  else
    let rc := findEmpty p
    let nrc : Int × Int :=
      if direction = "up" then (rc.1 - 1, rc.2)
      else if direction = "down" then (rc.1 + 1, rc.2)
      else if direction = "left" then (rc.1, rc.2 - 1)
      else (rc.1, rc.2 + 1)
    let a := pyGet2 p.state rc.1 rc.2
    let b := pyGet2 p.state nrc.1 nrc.2
    (true, ⟨pySet2 (pySet2 p.state rc.1 rc.2 b) nrc.1 nrc.2 a⟩)

/-- The inversion count of `is_solvable`: the nested loops
`for i ...: for j in range(i+1, ...)` count the pairs `i < j` with
`flat[i] > flat[j]`; the inner loop over `j` is the `countP`. -/
def countInversions : List Nat → Nat
  | [] => 0
  | x :: xs => xs.countP (fun y => decide (y < x)) + countInversions xs

/-- The flattening `[state[i][j] for i in range(size) for j in range(size)
if state[i][j] != 0]`. -/
def flatTiles (p : Puzzle) : List Nat :=
  (List.range p.size).flatMap (fun i =>
    ((List.range p.size).map (fun j => cellAt p i j)).filter (fun v => v ≠ 0))

/-- `Puzzle.is_solvable`. -/
def isSolvable (p : Puzzle) : Bool :=
  let inversions := countInversions (flatTiles p)
  if p.size % 2 = 1 then inversions % 2 == 0
  else
    let empty_row_from_bottom : Int := (p.size : Int) - 1 - (findEmpty p).1
    ((inversions : Int) + empty_row_from_bottom) % 2 == 0

/-- Applying a sequence of moves with `make_move` (a failed move leaves the
board unchanged). -/
def applyMoves (p : Puzzle) (moves : List String) : Puzzle :=
  moves.foldl (fun b m => (makeMove b m).2) p

end Puzzle

/-! ## `bfs_solver.py` — `BFSSolver.solve` -/

namespace BFSSolver

open Puzzle

/-- Fuel dominating every solver run: each loop iteration pops one queue
element, each board enters the queue at most once, and the number of
distinct boards over a fixed multiset of `size²` tiles is at most
`(size²)!`. -/
def solveFuel (p : Puzzle) : Nat := (p.size * p.size).factorial + 1

/-- The `while queue:` loop of `BFSSolver.solve`: pop `(puzzle, path)`,
return `path` at the goal, otherwise enqueue every unvisited successor with
its extended path. -/
def solveLoop : Nat → List (Puzzle × List String) → List Puzzle →
    Option (List String)
  | 0, _, _ => none
  | _ + 1, [], _ => none
  | fuel + 1, (cur, path) :: rest, visited =>
    if isGoal cur then some path
    else
      let next := (getValidMoves cur).foldl
        (fun qv m =>
          let np := (makeMove cur m).2
          if np ∈ qv.2 then qv
          else (qv.1 ++ [(np, path ++ [m])], qv.2 ++ [np]))
        (rest, visited)
      solveLoop fuel next.1 next.2

/-- `BFSSolver.solve`: the goal test, then the parity precheck returning the
infeasible signal `none`, then BFS seeded with the initial state. -/
def solve (p : Puzzle) : Option (List String) :=
  if isGoal p then some []
  else if ¬ isSolvable p then none
  else solveLoop (solveFuel p) [(p, [])] [p]

end BFSSolver

/-! ## Paths in a grid

A start-to-end path under 4-directional unit-cost moves: each step goes to
a `get_neighbors` cell (in bounds and not a wall).  `Walk g s v n` means
there is such a path from `s` to `v` with `n` edges. -/

inductive Walk (g : Grid) (s : Pos) : Pos → Nat → Prop
  | nil : Walk g s s 0
  | snoc {u v : Pos} {n : Nat} :
      Walk g s u n → v ∈ g.get_neighbors u.1 u.2 → Walk g s v (n + 1)

/-- `n` is the minimum edge count of any path from `s` to `e` in `g`. -/
def ShortestLen (g : Grid) (s e : Pos) (n : Nat) : Prop :=
  Walk g s e n ∧ ∀ m, Walk g s e m → n ≤ m

theorem walk_zero {g : Grid} {s v : Pos} (h : Walk g s v 0) : v = s := by
  cases h; rfl

theorem shortestLen_unique {g : Grid} {s e : Pos} {n m : Nat}
    (hn : ShortestLen g s e n) (hm : ShortestLen g s e m) : n = m :=
  Nat.le_antisymm (hn.2 m hm.1) (hm.2 n hn.1)

theorem exists_shortestLen {g : Grid} {s v : Pos} {n : Nat}
    (h : Walk g s v n) : ∃ m, ShortestLen g s v m := by
  classical
  have hne : ∃ k, Walk g s v k := ⟨n, h⟩
  have hdec : DecidablePred fun k => Walk g s v k :=
    fun _ => Classical.propDecidable _
  exact ⟨Nat.find hne, Nat.find_spec hne, fun m hm => Nat.find_min' hne hm⟩

theorem shortestLen_zero {g : Grid} {s : Pos} : ShortestLen g s s 0 :=
  ⟨Walk.nil, fun m _ => Nat.zero_le m⟩

/-- Membership in `get_neighbors`: a valid cell one step away in one of the
four directions. -/
theorem mem_get_neighbors {g : Grid} {r c : Int} {v : Pos} :
    v ∈ g.get_neighbors r c ↔
      g.is_valid v.1 v.2 ∧ ∃ d ∈ Grid.directions, v = (r + d.1, c + d.2) := by
  simp only [Grid.get_neighbors, List.mem_filter, List.mem_map,
    decide_eq_true_eq]
  constructor
  · rintro ⟨⟨d, hd, rfl⟩, hv⟩
    exact ⟨hv, d, hd, rfl⟩
  · rintro ⟨hv, d, hd, rfl⟩
    exact ⟨⟨d, hd, rfl⟩, hv⟩

/-- Positions returned by `get_neighbors` are valid cells. -/
theorem get_neighbors_valid {g : Grid} {r c : Int} {v : Pos}
    (h : v ∈ g.get_neighbors r c) : g.is_valid v.1 v.2 :=
  (mem_get_neighbors.mp h).1

/-- Positions returned by `get_neighbors` differ from the center. -/
theorem get_neighbors_ne {g : Grid} {u v : Pos}
    (h : v ∈ g.get_neighbors u.1 u.2) : v ≠ u := by
  obtain ⟨-, d, hd, rfl⟩ := mem_get_neighbors.mp h
  simp only [Grid.directions, List.mem_cons, List.not_mem_nil, or_false] at hd
  intro hvu
  have h1 := congrArg Prod.fst hvu
  have h2 := congrArg Prod.snd hvu
  simp only [Prod.fst, Prod.snd] at h1 h2
  rcases hd with rfl | rfl | rfl | rfl <;> simp_all

/-! ## Predecessor chains

`ChainL g par s v l` says that following the predecessor map `par` from `v`
reaches `s` (whose predecessor is the `None` sentinel), that consecutive
chain elements are graph edges, and that `l` is the resulting list of
states `[v, …, s]`. -/

inductive ChainL (g : Grid) (par : Pmap) (s : Pos) : Pos → List Pos → Prop
  | nil : par s = some none → ChainL g par s s [s]
  | snoc {u v : Pos} {l : List Pos} :
      par v = some (some u) → v ∈ g.get_neighbors u.1 u.2 →
      ChainL g par s u l → ChainL g par s v (v :: l)

theorem ChainL.head_mem {g : Grid} {par : Pmap} {s v : Pos} {l : List Pos}
    (h : ChainL g par s v l) : v ∈ l := by
  cases h <;> simp

theorem ChainL.length_pos {g : Grid} {par : Pmap} {s v : Pos} {l : List Pos}
    (h : ChainL g par s v l) : 0 < l.length := by
  cases h <;> simp

theorem ChainL.walk {g : Grid} {par : Pmap} {s v : Pos} {l : List Pos}
    (h : ChainL g par s v l) : Walk g s v (l.length - 1) := by
  induction h with
  | nil _ => exact Walk.nil
  | snoc hpar hedge hc ih =>
    rename_i u v l
    have hl := hc.length_pos
    have hlen : (v :: l).length - 1 = (l.length - 1) + 1 := by
      simp only [List.length_cons]
      omega
    rw [hlen]
    exact Walk.snoc ih hedge

theorem ChainL.unique {g : Grid} {par : Pmap} {s v : Pos} {l l' : List Pos}
    (h : ChainL g par s v l) (h' : ChainL g par s v l') : l = l' := by
  induction h generalizing l' with
  | nil hs =>
    cases h' with
    | nil _ => rfl
    | snoc hpar _ _ => rw [hs] at hpar; cases hpar
  | snoc hpar hedge hc ih =>
    cases h' with
    | nil hs => rw [hs] at hpar; cases hpar
    | snoc hpar' hedge' hc' =>
      rw [hpar] at hpar'
      have hu := Option.some_injective _ (Option.some_injective _ hpar')
      subst hu
      rw [ih hc']

/-- Any member of a chain list heads its own chain, a suffix of the list. -/
theorem ChainL.mem_suffix {g : Grid} {par : Pmap} {s v : Pos}
    {l : List Pos} (h : ChainL g par s v l) :
    ∀ w ∈ l, ∃ l', ChainL g par s w l' ∧ l' <:+ l := by
  induction h with
  | nil hs =>
    intro w hw
    simp only [List.mem_singleton] at hw
    subst hw
    exact ⟨_, ChainL.nil hs, List.suffix_refl _⟩
  | snoc hpar hedge hc ih =>
    rename_i u v l
    intro w hw
    rcases List.mem_cons.mp hw with rfl | hwl
    · exact ⟨w :: l, ChainL.snoc hpar hedge hc, List.suffix_refl _⟩
    · obtain ⟨l', hl', hsuf⟩ := ih w hwl
      exact ⟨l', hl', hsuf.trans (List.suffix_cons _ _)⟩

theorem ChainL.nodup {g : Grid} {par : Pmap} {s v : Pos} {l : List Pos}
    (h : ChainL g par s v l) : l.Nodup := by
  induction h with
  | nil _ => simp
  | snoc hpar hedge hc ih =>
    rename_i u v l
    refine List.nodup_cons.mpr ⟨?_, ih⟩
    intro hvl
    obtain ⟨l', hl', hsuf⟩ := hc.mem_suffix v hvl
    rw [hl'.unique (ChainL.snoc hpar hedge hc)] at hsuf
    have := hsuf.length_le
    simp at this

/-- Updating the predecessor map outside the chain preserves the chain. -/
theorem ChainL.congr {g : Grid} {par par' : Pmap} {s v : Pos} {l : List Pos}
    (h : ChainL g par s v l) (hagree : ∀ x ∈ l, par' x = par x) :
    ChainL g par' s v l := by
  induction h with
  | nil hs => exact ChainL.nil ((hagree _ (by simp)).trans hs)
  | snoc hpar hedge hc ih =>
    refine ChainL.snoc ((hagree _ (by simp)).trans hpar) hedge (ih ?_)
    intro x hx
    exact hagree x (List.mem_cons_of_mem _ hx)

/-- With enough fuel, the reconstruction loop walks exactly the chain. -/
theorem ChainL.walkParent_eq {g : Grid} {par : Pmap} {s v : Pos}
    {l : List Pos} (h : ChainL g par s v l) :
    ∀ fuel, l.length ≤ fuel → walkParent fuel par v = l := by
  induction h with
  | nil hs =>
    intro fuel hfuel
    cases fuel with
    | zero => simp at hfuel
    | succ f => simp [walkParent, hs]
  | snoc hpar hedge hc ih =>
    rename_i u v l
    intro fuel hfuel
    cases fuel with
    | zero => simp at hfuel
    | succ f =>
      have hf : l.length ≤ f := by
        simp only [List.length_cons] at hfuel
        omega
      simp [walkParent, hpar, ih f hf]

/-- A chain of distinct states contained in a state list is no longer than
that list. -/
theorem ChainL.length_le {g : Grid} {par : Pmap} {s v : Pos} {l L : List Pos}
    (h : ChainL g par s v l) (hsub : ∀ x ∈ l, x ∈ L) : l.length ≤ L.length :=
  (List.subperm_of_subset h.nodup hsub).length_le

/-! ## Correctness of `bfs`

The loop invariant: the queue splits into a layer of states at breadth `k`
followed by a layer at breadth `k+1`; every state at distance `≤ k` has been
discovered; every discovered state carries a predecessor chain realizing its
exact shortest distance; processed states have all neighbors discovered. -/

/-- The invariant holding between iterations of the `bfs` loop and, in the
`Mid` variant, while the neighbors of the just-popped state `cur` are being
relaxed (`cur` is exempted from the closure clause until its neighbor loop
finishes). -/
structure BfsMidInv (g : Grid) (s : Pos) (k : Nat) (cur : Pos) (st : BfsSt) :
    Prop where
  layers : ∃ q₁ q₂, st.queue = q₁ ++ q₂ ∧
    (∀ v ∈ q₁, ShortestLen g s v k) ∧ (∀ v ∈ q₂, ShortestLen g s v (k + 1))
  cover : ∀ v m, m ≤ k → ShortestLen g s v m → v ∈ st.vset
  chains : ∀ v ∈ st.vset, ∃ m l, ShortestLen g s v m ∧
    ChainL g st.par s v l ∧ l.length = m + 1 ∧ ∀ x ∈ l, x ∈ st.vset
  closure : ∀ v ∈ st.vset, v ∉ st.queue → v ≠ cur →
    ∀ w ∈ g.get_neighbors v.1 v.2, w ∈ st.vset
  qsub : ∀ v ∈ st.queue, v ∈ st.vset
  qnodup : st.queue.Nodup
  curChain : ∃ l, ChainL g st.par s cur l ∧ l.length = k + 1 ∧
    ∀ x ∈ l, x ∈ st.vset
  curMem : cur ∈ st.vset
  curNotQ : cur ∉ st.queue

/-- The invariant between iterations of the `bfs` loop, at breadth `k`. -/
structure BfsInvAt (g : Grid) (s : Pos) (k : Nat) (st : BfsSt) : Prop where
  layers : ∃ q₁ q₂, st.queue = q₁ ++ q₂ ∧
    (∀ v ∈ q₁, ShortestLen g s v k) ∧ (∀ v ∈ q₂, ShortestLen g s v (k + 1))
  cover : ∀ v m, m ≤ k → ShortestLen g s v m → v ∈ st.vset
  chains : ∀ v ∈ st.vset, ∃ m l, ShortestLen g s v m ∧
    ChainL g st.par s v l ∧ l.length = m + 1 ∧ ∀ x ∈ l, x ∈ st.vset
  closure : ∀ v ∈ st.vset, v ∉ st.queue →
    ∀ w ∈ g.get_neighbors v.1 v.2, w ∈ st.vset
  qsub : ∀ v ∈ st.queue, v ∈ st.vset
  qnodup : st.queue.Nodup

def BfsInv (g : Grid) (s : Pos) (st : BfsSt) : Prop := ∃ k, BfsInvAt g s k st

theorem bfsInit_inv (g : Grid) (s : Pos) : BfsInv g s (bfsInit s) := by
  have hpar : pupd (fun _ => none) s none s = some none := by simp [pupd]
  have hchain : ChainL g (pupd (fun _ => none) s none) s s [s] := ChainL.nil hpar
  refine ⟨0, ⟨[s], [], rfl, ?_, by simp⟩, ?_, ?_, ?_, ?_, ?_⟩
  · intro v hv
    simp only [List.mem_singleton] at hv
    rw [hv]
    exact shortestLen_zero
  · intro v m hm hsh
    interval_cases m
    have := walk_zero hsh.1
    simp [bfsInit, this]
  · intro v hv
    simp only [bfsInit, List.mem_singleton] at hv
    rw [hv]
    exact ⟨0, [s], shortestLen_zero, hchain, rfl, by simp [bfsInit]⟩
  · intro v hv hvq
    simp only [bfsInit, List.mem_singleton] at hv
    rw [hv] at hvq
    simp [bfsInit] at hvq
  · simp [bfsInit]
  · simp [bfsInit]

theorem shortest_succ_pred {g : Grid} {s v : Pos} {k : Nat}
    (h : ShortestLen g s v (k + 1)) :
    ∃ u, Walk g s u k ∧ v ∈ g.get_neighbors u.1 u.2 := by
  cases h.1 with
  | snoc hw hedge => exact ⟨_, hw, hedge⟩

/-- Coverage bump: when every queued state sits at breadth `k+1`, every
state at distance `≤ k+1` has already been discovered (its predecessor on a
shortest path is discovered, processed, and closed under neighbors). -/
theorem bfs_cover_bump {g : Grid} {s : Pos} {k : Nat} {st : BfsSt}
    (inv : BfsInvAt g s k st)
    (hall : ∀ v ∈ st.queue, ShortestLen g s v (k + 1)) :
    ∀ v m, m ≤ k + 1 → ShortestLen g s v m → v ∈ st.vset := by
  intro v m hm hsh
  rcases Nat.lt_or_ge m (k + 1) with hlt | hge
  · exact inv.cover v m (by omega) hsh
  · have hm1 : m = k + 1 := by omega
    subst hm1
    obtain ⟨u, hwu, hedge⟩ := shortest_succ_pred hsh
    obtain ⟨mu, hshu⟩ := exists_shortestLen hwu
    have hmu : mu ≤ k := hshu.2 k hwu
    have humem : u ∈ st.vset := inv.cover u mu hmu hshu
    have hunq : u ∉ st.queue := by
      intro hq
      have := shortestLen_unique hshu (hall u hq)
      omega
    exact inv.closure u humem hunq v hedge

/-- Popping the queue head: the invariant yields the popped state's breadth
and the mid-relaxation invariant for any state with the same visited set and
predecessor map and the remaining queue. -/
theorem bfs_pop_midinv {g : Grid} {s : Pos} {k : Nat} {st st' : BfsSt}
    {cur : Pos} {rest : List Pos}
    (inv : BfsInvAt g s k st) (hq : st.queue = cur :: rest)
    (hq' : st'.queue = rest) (hv' : st'.vset = st.vset)
    (hp' : st'.par = st.par) :
    ∃ k', ShortestLen g s cur k' ∧ BfsMidInv g s k' cur st' := by
  obtain ⟨q₁, q₂, hsplit, h₁, h₂⟩ := inv.layers
  have hcurv : cur ∈ st.vset := inv.qsub cur (by rw [hq]; simp)
  have hnd := inv.qnodup
  rw [hq] at hnd
  have hcnr : cur ∉ rest := (List.nodup_cons.mp hnd).1
  have hrnd : rest.Nodup := (List.nodup_cons.mp hnd).2
  have closure' : ∀ v ∈ st'.vset, v ∉ st'.queue → v ≠ cur →
      ∀ w ∈ g.get_neighbors v.1 v.2, w ∈ st'.vset := by
    intro v hvm hvq hvc w hw
    rw [hv'] at hvm ⊢
    rw [hq'] at hvq
    refine inv.closure v hvm ?_ w hw
    rw [hq]
    simp only [List.mem_cons, not_or]
    exact ⟨hvc, hvq⟩
  have qsub' : ∀ v ∈ st'.queue, v ∈ st'.vset := by
    intro v hvq
    rw [hq'] at hvq
    rw [hv']
    exact inv.qsub v (by rw [hq]; exact List.mem_cons_of_mem _ hvq)
  have qnodup' : st'.queue.Nodup := by rw [hq']; exact hrnd
  cases q₁ with
  | nil =>
    simp only [List.nil_append] at hsplit
    rw [hq] at hsplit
    have hall : ∀ v ∈ st.queue, ShortestLen g s v (k + 1) := by
      intro v hv
      rw [hq, hsplit] at hv
      exact h₂ v hv
    have hcur : ShortestLen g s cur (k + 1) :=
      hall cur (by rw [hq]; simp)
    have hcover := bfs_cover_bump inv hall
    obtain ⟨m, l, hshm, hchain, hlen, hsub⟩ := inv.chains cur hcurv
    have hmk := shortestLen_unique hshm hcur
    subst hmk
    refine ⟨k + 1, hcur, ?_⟩
    refine ⟨⟨rest, [], by simp [hq'], ?_, by simp⟩, ?_, ?_, closure', qsub',
      qnodup', ?_, ?_, ?_⟩
    · intro v hv
      exact hall v (by rw [hq]; exact List.mem_cons_of_mem _ hv)
    · intro v m hm hsh
      rw [hv']
      exact hcover v m hm hsh
    · intro v hv
      rw [hv'] at hv ⊢
      rw [hp']
      exact inv.chains v hv
    · rw [hv', hp']
      exact ⟨l, hchain, hlen, hsub⟩
    · rw [hv']; exact hcurv
    · rw [hq']; exact hcnr
  | cons c q₁' =>
    rw [hq] at hsplit
    have hc : c = cur ∧ rest = q₁' ++ q₂ := by
      constructor
      · exact (List.cons.injEq _ _ _ _ ▸ hsplit.symm).1
      · exact ((List.cons.injEq _ _ _ _ ▸ hsplit.symm).2).symm
    obtain ⟨rfl, hrest⟩ := hc
    have hcur : ShortestLen g s c k := h₁ c (by simp)
    obtain ⟨m, l, hshm, hchain, hlen, hsub⟩ := inv.chains c hcurv
    have hmk := shortestLen_unique hshm hcur
    rw [hmk] at hlen
    refine ⟨k, hcur, ?_⟩
    refine ⟨⟨q₁', q₂, by rw [hq', hrest], fun v hv => h₁ v (by simp [hv]),
      h₂⟩, ?_, ?_, closure', qsub', qnodup', ?_, ?_, ?_⟩
    · intro v m hm hsh
      rw [hv']
      exact inv.cover v m hm hsh
    · intro v hv
      rw [hv'] at hv ⊢
      rw [hp']
      exact inv.chains v hv
    · rw [hv', hp']
      exact ⟨l, hchain, hlen, hsub⟩
    · rw [hv']; exact hcurv
    · rw [hq']; exact hcnr

/-- The body of the `for neighbor in grid.get_neighbors(*current)` loop of
`bfs`, as a function of one neighbor. -/
def bfsStep1 (cur : Pos) (st : BfsSt) (n : Pos) : BfsSt :=
  if n ∈ st.vset then st
  else
    { st with
      vset := st.vset ++ [n]
      par := pupd st.par n (some cur)
      queue := st.queue ++ [n]
      vtrace := st.vtrace ++ [n]
      pushLog := st.pushLog ++ [n] }

theorem bfsRelax_eq_foldl (g : Grid) (cur : Pos) (st : BfsSt) :
    bfsRelax g cur st =
      (g.get_neighbors cur.1 cur.2).foldl (bfsStep1 cur) st := rfl

/-- One relaxation step preserves the mid invariant, discovers the
neighbor, and only grows the visited set. -/
theorem bfsStep1_inv {g : Grid} {s : Pos} {k : Nat} {cur n : Pos}
    {st : BfsSt} (hedge : n ∈ g.get_neighbors cur.1 cur.2)
    (inv : BfsMidInv g s k cur st) :
    BfsMidInv g s k cur (bfsStep1 cur st n) ∧
      n ∈ (bfsStep1 cur st n).vset ∧
      ∀ x ∈ st.vset, x ∈ (bfsStep1 cur st n).vset := by
  by_cases hn : n ∈ st.vset
  · simp only [bfsStep1, if_pos hn]
    exact ⟨inv, hn, fun x hx => hx⟩
  · obtain ⟨lc, hlc, hlclen, hlcsub⟩ := inv.curChain
    have hcurw : Walk g s cur k := by
      have := hlc.walk
      rwa [hlclen, Nat.add_sub_cancel] at this
    have hnw : Walk g s n (k + 1) := Walk.snoc hcurw hedge
    have hnsh : ShortestLen g s n (k + 1) := by
      refine ⟨hnw, ?_⟩
      intro m hw
      by_contra hlt
      push_neg at hlt
      obtain ⟨m', hm'⟩ := exists_shortestLen hw
      have hm'k : m' ≤ k := by
        have := hm'.2 m hw
        omega
      exact hn (inv.cover n m' hm'k hm')
    have hnel : n ∉ lc := fun hmem => hn (hlcsub n hmem)
    have hagree : ∀ x ∈ lc, pupd st.par n (some cur) x = st.par x := by
      intro x hx
      have : x ≠ n := fun hxn => hnel (hxn ▸ hx)
      simp [pupd, this]
    have hlc' : ChainL g (pupd st.par n (some cur)) s cur lc :=
      hlc.congr hagree
    have hnchain : ChainL g (pupd st.par n (some cur)) s n (n :: lc) :=
      ChainL.snoc (by simp [pupd]) hedge hlc'
    simp only [bfsStep1, if_neg hn]
    refine ⟨⟨?_, ?_, ?_, ?_, ?_, ?_, ?_, ?_, ?_⟩, by simp, fun x hx => by simp [hx]⟩
    · obtain ⟨q₁, q₂, hsplit, h₁, h₂⟩ := inv.layers
      refine ⟨q₁, q₂ ++ [n], by simp [hsplit], h₁, ?_⟩
      intro v hv
      rcases List.mem_append.mp hv with hv | hv
      · exact h₂ v hv
      · simp only [List.mem_singleton] at hv
        rw [hv]
        exact hnsh
    · intro v m hm hsh
      simp only [List.mem_append]
      exact Or.inl (inv.cover v m hm hsh)
    · intro v hv
      simp only [List.mem_append, List.mem_singleton] at hv
      rcases hv with hv | hv
      · obtain ⟨m, l, hsh, hchain, hlen, hsub⟩ := inv.chains v hv
        have hnel' : ∀ x ∈ l, x ≠ n := fun x hx hxn => hn (hxn ▸ hsub x hx)
        refine ⟨m, l, hsh, hchain.congr ?_, hlen, ?_⟩
        · intro x hx
          simp [pupd, hnel' x hx]
        · intro x hx
          simp [hsub x hx]
      · rw [hv]
        refine ⟨k + 1, n :: lc, hnsh, hnchain, by simp [hlclen], ?_⟩
        intro x hx
        rcases List.mem_cons.mp hx with rfl | hx
        · simp
        · simp [hlcsub x hx]
    · intro v hv hvq hvc w hw
      simp only [List.mem_append, List.mem_singleton] at hv ⊢
      rcases hv with hv | hv
      · refine Or.inl (inv.closure v hv ?_ hvc w hw)
        intro hvq'
        exact hvq (by simp [hvq'])
      · exfalso
        exact hvq (by simp [hv])
    · intro v hv
      simp only [List.mem_append, List.mem_singleton] at hv ⊢
      rcases hv with hv | hv
      · exact Or.inl (inv.qsub v hv)
      · exact Or.inr hv
    · have hnq : n ∉ st.queue := fun hq => hn (inv.qsub n hq)
      rw [List.nodup_append]
      refine ⟨inv.qnodup, by simp, ?_⟩
      intro a ha hb
      simp only [List.mem_singleton] at hb
      rw [hb] at ha
      exact hnq ha
    · refine ⟨lc, hlc', hlclen, ?_⟩
      intro x hx
      simp [hlcsub x hx]
    · simp [inv.curMem]
    · have hcn : cur ≠ n := fun h => hn (h ▸ inv.curMem)
      simp only [List.mem_append, List.mem_singleton]
      push_neg
      exact ⟨inv.curNotQ, hcn⟩

/-- Folding the relaxation over any sublist of the neighbor list preserves
the mid invariant and discovers every processed neighbor. -/
theorem bfsRelax_fold_inv {g : Grid} {s : Pos} {k : Nat} {cur : Pos} :
    ∀ (ns : List Pos) (st : BfsSt),
      (∀ n ∈ ns, n ∈ g.get_neighbors cur.1 cur.2) →
      BfsMidInv g s k cur st →
      BfsMidInv g s k cur (ns.foldl (bfsStep1 cur) st) ∧
        (∀ n ∈ ns, n ∈ (ns.foldl (bfsStep1 cur) st).vset) ∧
        (∀ x ∈ st.vset, x ∈ (ns.foldl (bfsStep1 cur) st).vset) := by
  intro ns
  induction ns with
  | nil => exact fun st _ inv => ⟨inv, by simp, fun x hx => hx⟩
  | cons n ns ih =>
    intro st hsub inv
    obtain ⟨inv1, hn1, hmono1⟩ := bfsStep1_inv (hsub n (by simp)) inv
    obtain ⟨inv2, hns2, hmono2⟩ :=
      ih (bfsStep1 cur st n) (fun m hm => hsub m (by simp [hm])) inv1
    refine ⟨inv2, ?_, fun x hx => hmono2 x (hmono1 x hx)⟩
    intro m hm
    rcases List.mem_cons.mp hm with rfl | hm
    · exact hmono2 m hn1
    · exact hns2 m hm

/-- Closing the mid invariant: once every neighbor of `cur` is discovered,
the full between-iterations invariant holds again. -/
theorem bfsMidInv_close {g : Grid} {s : Pos} {k : Nat} {cur : Pos}
    {st : BfsSt} (inv : BfsMidInv g s k cur st)
    (hnb : ∀ w ∈ g.get_neighbors cur.1 cur.2, w ∈ st.vset) :
    BfsInvAt g s k st := by
  refine ⟨inv.layers, inv.cover, inv.chains, ?_, inv.qsub, inv.qnodup⟩
  intro v hv hvq w hw
  by_cases hvc : v = cur
  · rw [hvc] at hw
    exact hnb w hw
  · exact inv.closure v hv hvq hvc w hw

/-- Whenever the `bfs` loop reports `found`, the reported `path_length` is
the shortest distance from the start to the end state. -/
theorem bfsLoop_shortest (g : Grid) (s e : Pos) :
    ∀ (fuel : Nat) (st : BfsSt), BfsInv g s st →
      (bfsLoop g e fuel st).res.found = true →
      ShortestLen g s e ((bfsLoop g e fuel st).res.path_length) := by
  intro fuel
  induction fuel with
  | zero =>
    intro st _ hf
    simp [bfsLoop, bfsUnfound, PathfindingResult.init] at hf
  | succ f ih =>
    intro st hinv hf
    obtain ⟨k, inv⟩ := hinv
    rcases hq : st.queue with _ | ⟨cur, rest⟩
    · rw [bfsLoop, hq] at hf
      simp [bfsUnfound, PathfindingResult.init] at hf
    · simp only [bfsLoop, hq] at hf ⊢
      by_cases hce : cur = e
      · rw [if_pos hce] at hf ⊢
        have hev : e ∈ st.vset := by
          refine inv.qsub e ?_
          rw [hq, ← hce]
          simp
        obtain ⟨m, l, hsh, hchain, hlen, hsub⟩ := inv.chains e hev
        have hfuel : l.length ≤ st.vset.length + 1 :=
          le_trans (hchain.length_le hsub) (Nat.le_succ _)
        have hwp := hchain.walkParent_eq (st.vset.length + 1) hfuel
        simp only [bfsFound, List.length_reverse]
        rw [hwp, hlen]
        simpa using hsh
      · rw [if_neg hce] at hf ⊢
        obtain ⟨k', hcur, midinv⟩ :=
          @bfs_pop_midinv _ _ _ _
            { st with
              queue := rest
              etrace := st.etrace ++ [cur]
              settleLog := st.settleLog ++ [cur] }
            _ _ inv hq rfl rfl rfl
        obtain ⟨midinv', hnb, hmono⟩ :=
          bfsRelax_fold_inv (g.get_neighbors cur.1 cur.2) _
            (fun n hn => hn) midinv
        exact ih _ ⟨k', bfsMidInv_close midinv' hnb⟩ hf

/-- `bfs` reports a shortest path length whenever it reports success. -/
theorem bfs_found_shortest {g : Grid} {s e : Pos}
    (h : (bfs g s e).found = true) :
    ShortestLen g s e ((bfs g s e).path_length) := by
  unfold bfs bfsRun at h ⊢
  by_cases hv : g.is_valid s.1 s.2 ∧ g.is_valid e.1 e.2
  · rw [if_pos hv] at h ⊢
    exact bfsLoop_shortest g s e (bfsFuel g) (bfsInit s) (bfsInit_inv g s) h
  · rw [if_neg hv] at h
    simp [PathfindingResult.init] at h

/-! ## Correctness of the priority-queue loop (`astar` and `dijkstra`) -/

theorem entryLe_refl (a : Entry) : entryLe a a := by
  simp [entryLe]

theorem entryLe_trans {a b c : Entry} (hab : entryLe a b) (hbc : entryLe b c) :
    entryLe a c := by
  obtain ⟨a1, a2, a3⟩ := a
  obtain ⟨b1, b2, b3⟩ := b
  obtain ⟨c1, c2, c3⟩ := c
  simp only [entryLe] at hab hbc ⊢
  omega

theorem entryLe_total (a b : Entry) : entryLe a b ∨ entryLe b a := by
  obtain ⟨a1, a2, a3⟩ := a
  obtain ⟨b1, b2, b3⟩ := b
  simp only [entryLe]
  omega

theorem entryLe_fst {a b : Entry} (h : entryLe a b) : a.1 ≤ b.1 := by
  obtain ⟨a1, a2, a3⟩ := a
  obtain ⟨b1, b2, b3⟩ := b
  simp only [entryLe] at h
  omega

theorem findMinE_cons (x : Entry) (xs : List Entry) (m : Entry) :
    findMinE (x :: xs) m = findMinE xs (if entryLe x m then x else m) := rfl

theorem findMinE_mem (l : List Entry) :
    ∀ m, findMinE l m = m ∨ findMinE l m ∈ l := by
  induction l with
  | nil => exact fun m => Or.inl rfl
  | cons x xs ih =>
    intro m
    rw [findMinE_cons]
    by_cases hx : entryLe x m
    · rw [if_pos hx]
      rcases ih x with hm | hm
      · exact Or.inr (by rw [hm]; simp)
      · exact Or.inr (by simp [hm])
    · rw [if_neg hx]
      rcases ih m with hm | hm
      · exact Or.inl hm
      · exact Or.inr (by simp [hm])

theorem findMinE_le (l : List Entry) :
    ∀ m, entryLe (findMinE l m) m ∧ ∀ y ∈ l, entryLe (findMinE l m) y := by
  induction l with
  | nil => exact fun m => ⟨entryLe_refl m, by simp⟩
  | cons x xs ih =>
    intro m
    rw [findMinE_cons]
    by_cases hx : entryLe x m
    · rw [if_pos hx]
      obtain ⟨h1, h2⟩ := ih x
      refine ⟨entryLe_trans h1 hx, ?_⟩
      intro y hy
      rcases List.mem_cons.mp hy with rfl | hy
      · exact h1
      · exact h2 y hy
    · rw [if_neg hx]
      obtain ⟨h1, h2⟩ := ih m
      have hmx : entryLe m x := (entryLe_total x m).resolve_left hx
      refine ⟨h1, ?_⟩
      intro y hy
      rcases List.mem_cons.mp hy with rfl | hy
      · exact entryLe_trans h1 hmx
      · exact h2 y hy

theorem popMin_some {l : List Entry} {m : Entry} {r : List Entry}
    (hp : popMin l = some (m, r)) :
    m ∈ l ∧ (∀ y ∈ l, entryLe m y) ∧ r = l.erase m := by
  cases l with
  | nil => cases hp
  | cons x xs =>
    simp only [popMin, Option.some.injEq, Prod.mk.injEq] at hp
    obtain ⟨h1, h2⟩ := hp
    subst h1
    subst h2
    refine ⟨?_, ?_, rfl⟩
    · rcases findMinE_mem xs x with hm | hm
      · rw [hm]; simp
      · simp [hm]
    · intro y hy
      obtain ⟨ha, hb⟩ := findMinE_le xs x
      rcases List.mem_cons.mp hy with rfl | hy
      · exact ha
      · exact hb y hy

theorem popMin_rest_mem {l : List Entry} {m : Entry} {r : List Entry}
    (hp : popMin l = some (m, r)) {y : Entry} (hy : y ∈ l) (hne : y ≠ m) :
    y ∈ r := by
  obtain ⟨-, -, rfl⟩ := popMin_some hp
  exact (List.mem_erase_of_ne hne).mpr hy

theorem popMin_rest_sub {l : List Entry} {m : Entry} {r : List Entry}
    (hp : popMin l = some (m, r)) : ∀ y ∈ r, y ∈ l := by
  obtain ⟨-, -, rfl⟩ := popMin_some hp
  exact fun y hy => List.erase_subset _ _ hy

/-- Consistency of the heuristic along graph edges, together with
nonnegativity built into `Nat`: this is what Manhattan distance satisfies
on the 4-directional grid, and trivially the zero heuristic of `dijkstra`. -/
def HeurCons (g : Grid) (h : Pos → Nat) : Prop :=
  ∀ u v : Pos, v ∈ g.get_neighbors u.1 u.2 → h u ≤ h v + 1

/-- The invariant of the lazy-deletion priority-queue loop, holding between
iterations once the start state has been settled.

* `settled`: every settled state's score is its exact shortest distance,
  realized by its predecessor chain through settled states;
* `entries`: every queued priority is the cost of an actual walk plus the
  heuristic;
* `discovered`: every queued state is settled or scored;
* `pending`: an unsettled scored state keeps its best entry in the queue,
  its score is a walk length, and its predecessor chain realizes the score
  through settled states;
* `frontier`: every edge out of the settled region has been relaxed. -/
structure PqInv (g : Grid) (s : Pos) (h : Pos → Nat) (st : PqSt) : Prop where
  sMem : s ∈ st.visited_set
  settled : ∀ v ∈ st.visited_set, ∃ t l, st.g_score v = some t ∧
    ShortestLen g s v t ∧ ChainL g st.came_from s v l ∧ l.length = t + 1 ∧
    ∀ x ∈ l, x ∈ st.visited_set
  entries : ∀ en ∈ st.open_set, ∃ gw, en.1 = gw + h en.2 ∧ Walk g s en.2 gw
  discovered : ∀ en ∈ st.open_set,
    en.2 ∈ st.visited_set ∨ (st.g_score en.2).isSome
  pending : ∀ v t, v ∉ st.visited_set → st.g_score v = some t →
    ((t + h v, v) ∈ st.open_set ∧
     (∀ pr, (pr, v) ∈ st.open_set → t + h v ≤ pr) ∧
     Walk g s v t ∧
     ∃ l, ChainL g st.came_from s v l ∧ l.length = t + 1 ∧
       ∀ x ∈ l, x = v ∨ x ∈ st.visited_set)
  frontier : ∀ u ∈ st.visited_set, ∀ w, w ∈ g.get_neighbors u.1 u.2 →
    w ∉ st.visited_set → ∃ tu tw, st.g_score u = some tu ∧
      st.g_score w = some tw ∧ tw ≤ tu + 1
  nodupS : st.visited_set.Nodup

/-- The state just before the first iteration (`astar` and `dijkstra` seed
the queue with `(0, start)` before their loop). -/
def PqState0 (s : Pos) (st : PqSt) : Prop :=
  st.open_set = [(0, s)] ∧ st.visited_set = [] ∧
  st.g_score = (fun x => if x = s then some 0 else none) ∧
  st.came_from = pupd (fun _ => none) s none

/-- Cover: any walk to an unsettled state is witnessed in the queue by an
entry with priority at most the walk length plus the heuristic. -/
theorem pq_cover {g : Grid} {s : Pos} {h : Pos → Nat} {st : PqSt}
    (inv : PqInv g s h st) (hcons : HeurCons g h) :
    ∀ {t : Pos} {n : Nat}, Walk g s t n → t ∉ st.visited_set →
      ∃ en ∈ st.open_set, en.1 ≤ n + h t := by
  intro t n hw
  induction hw with
  | nil => exact fun hns => absurd inv.sMem hns
  | snoc hwu hedge ihu =>
    rename_i u v n
    intro hv
    by_cases hu : u ∈ st.visited_set
    · obtain ⟨tu, tw, hgu, hgw, htw⟩ := inv.frontier u hu v hedge hv
      obtain ⟨tu', l, hg', hsh, -, -, -⟩ := inv.settled u hu
      have htu : tu' = tu := by
        rw [hgu] at hg'
        injection hg' with hh
        exact hh.symm
      have hun : tu' ≤ n := hsh.2 n hwu
      obtain ⟨hmem, -, -, -⟩ := inv.pending v tw hv hgw
      exact ⟨(tw + h v, v), hmem, by omega⟩
    · obtain ⟨en, hen, hle⟩ := ihu hu
      have hc := hcons u v hedge
      exact ⟨en, hen, by omega⟩

/-- Settling a popped state: its score is exact, the popped priority is the
score plus the heuristic, and the score is the shortest distance. -/
theorem pq_settle {g : Grid} {s : Pos} {h : Pos → Nat} {st : PqSt}
    {m : Entry} {r : List Entry} (inv : PqInv g s h st) (hcons : HeurCons g h)
    (hpop : popMin st.open_set = some (m, r)) (hnm : m.2 ∉ st.visited_set) :
    ∃ t, st.g_score m.2 = some t ∧ m.1 = t + h m.2 ∧
      ShortestLen g s m.2 t := by
  obtain ⟨hmem, hmin, -⟩ := popMin_some hpop
  obtain ⟨gw, hfm, hwm⟩ := inv.entries m hmem
  rcases inv.discovered m hmem with hS | hgs
  · exact absurd hS hnm
  obtain ⟨t, hgt⟩ := Option.isSome_iff_exists.mp hgs
  obtain ⟨hinE, hminv, hwt, -⟩ := inv.pending m.2 t hnm hgt
  have h1 : t + h m.2 ≤ m.1 := by
    refine hminv m.1 ?_
    rcases m with ⟨m1, m2⟩
    exact hmem
  have h2 : m.1 ≤ t + h m.2 := entryLe_fst (hmin _ hinE)
  have hf : m.1 = t + h m.2 := le_antisymm h2 h1
  refine ⟨t, hgt, hf, hwt, ?_⟩
  intro n hw
  obtain ⟨en, hen, hle⟩ := pq_cover inv hcons hw hnm
  have := entryLe_fst (hmin en hen)
  omega

/-- The mid-relaxation invariant: like `PqInv`, but the frontier clause for
the just-settled state `cur` (score `tc`) is only required for neighbors no
longer in the unprocessed list `rem`. -/
structure PqMidInv (g : Grid) (s : Pos) (h : Pos → Nat) (cur : Pos)
    (tc : Nat) (rem : List Pos) (st : PqSt) : Prop where
  sMem : s ∈ st.visited_set
  settled : ∀ v ∈ st.visited_set, ∃ t l, st.g_score v = some t ∧
    ShortestLen g s v t ∧ ChainL g st.came_from s v l ∧ l.length = t + 1 ∧
    ∀ x ∈ l, x ∈ st.visited_set
  entries : ∀ en ∈ st.open_set, ∃ gw, en.1 = gw + h en.2 ∧ Walk g s en.2 gw
  discovered : ∀ en ∈ st.open_set,
    en.2 ∈ st.visited_set ∨ (st.g_score en.2).isSome
  pending : ∀ v t, v ∉ st.visited_set → st.g_score v = some t →
    ((t + h v, v) ∈ st.open_set ∧
     (∀ pr, (pr, v) ∈ st.open_set → t + h v ≤ pr) ∧
     Walk g s v t ∧
     ∃ l, ChainL g st.came_from s v l ∧ l.length = t + 1 ∧
       ∀ x ∈ l, x = v ∨ x ∈ st.visited_set)
  frontier : ∀ u ∈ st.visited_set, ∀ w, w ∈ g.get_neighbors u.1 u.2 →
    w ∉ st.visited_set → (u = cur → w ∉ rem) →
    ∃ tu tw, st.g_score u = some tu ∧ st.g_score w = some tw ∧ tw ≤ tu + 1
  nodupS : st.visited_set.Nodup
  curMem : cur ∈ st.visited_set
  curScore : st.g_score cur = some tc
  curShort : ShortestLen g s cur tc

/-- The body of the neighbor relaxation loop, as a function of one
neighbor. -/
def pqStep1 (h : Pos → Nat) (base : Nat) (cur : Pos) (st : PqSt)
    (n : Pos) : PqSt :=
  if n ∈ st.visited_set then st
  else
    let tentative := base + 1
    if (st.g_score n).isNone ∨ tentative < (st.g_score n).getD 0 then
      { st with
        came_from := pupd st.came_from n (some cur)
        g_score := fun x => if x = n then some tentative else st.g_score x
        open_set := st.open_set ++ [(tentative + h n, n)]
        vtrace := if n ∈ st.vtrace then st.vtrace else st.vtrace ++ [n]
        pushLog := st.pushLog ++ [n] }
    else st

theorem pqRelax_eq_foldl (g : Grid) (h : Pos → Nat) (base : Nat) (cur : Pos)
    (st : PqSt) :
    pqRelax g h base cur st =
      (g.get_neighbors cur.1 cur.2).foldl (pqStep1 h base cur) st := rfl

/-- One relaxation step preserves the mid invariant, discharging the
just-processed neighbor from the unprocessed list. -/
theorem pqStep1_inv {g : Grid} {s : Pos} {h : Pos → Nat} {cur n : Pos}
    {tc : Nat} {rem : List Pos} {st : PqSt}
    (hedge : n ∈ g.get_neighbors cur.1 cur.2)
    (inv : PqMidInv g s h cur tc (n :: rem) st) :
    PqMidInv g s h cur tc rem (pqStep1 h tc cur st n) := by
  by_cases hn : n ∈ st.visited_set
  · simp only [pqStep1, if_pos hn]
    refine ⟨inv.sMem, inv.settled, inv.entries, inv.discovered, inv.pending,
      ?_, inv.nodupS, inv.curMem, inv.curScore, inv.curShort⟩
    intro u hu w hw hwns hex
    refine inv.frontier u hu w hw hwns ?_
    intro hucur
    have hwn : w ≠ n := fun hq => hwns (hq ▸ hn)
    simp only [List.mem_cons, not_or]
    exact ⟨hwn, hex hucur⟩
  · simp only [pqStep1, if_neg hn]
    by_cases himp : (st.g_score n).isNone ∨ tc + 1 < (st.g_score n).getD 0
    · rw [if_pos himp]
      -- the improved-neighbor case
      obtain ⟨tcc, lc, hgsc, hshc, hchainc, hlenc, hsubc⟩ :=
        inv.settled cur inv.curMem
      have htcc : tcc = tc := by
        rw [inv.curScore] at hgsc
        injection hgsc with hh
        exact hh.symm
      rw [htcc] at hshc hlenc
      have hnlc : n ∉ lc := fun hmem => hn (hsubc n hmem)
      have hagreec : ∀ x ∈ lc, pupd st.came_from n (some cur) x =
          st.came_from x := by
        intro x hx
        have hq : x ≠ n := fun hq => hnlc (hq ▸ hx)
        simp [pupd, hq]
      have hchainc2 : ChainL g (pupd st.came_from n (some cur)) s cur lc :=
        hchainc.congr hagreec
      have hnchain : ChainL g (pupd st.came_from n (some cur)) s n (n :: lc) :=
        ChainL.snoc (by simp [pupd]) hedge hchainc2
      have hwalkn : Walk g s n (tc + 1) := Walk.snoc inv.curShort.1 hedge
      have hcn : cur ≠ n := fun hq => hn (hq ▸ inv.curMem)
      refine ⟨inv.sMem, ?_, ?_, ?_, ?_, ?_, inv.nodupS, inv.curMem, ?_,
        inv.curShort⟩
      · -- settled
        intro v hv
        obtain ⟨t, l, hg, hsh, hchain, hlen, hsub⟩ := inv.settled v hv
        have hvn : v ≠ n := fun hq => hn (hq ▸ hv)
        refine ⟨t, l, by simp [hvn, hg], hsh, hchain.congr ?_, hlen, hsub⟩
        intro x hx
        have hq : x ≠ n := fun hq => hn (hq ▸ hsub x hx)
        simp [pupd, hq]
      · -- entries
        intro en hen
        rcases List.mem_append.mp hen with hen | hen
        · exact inv.entries en hen
        · simp only [List.mem_singleton] at hen
          rw [hen]
          exact ⟨tc + 1, rfl, hwalkn⟩
      · -- discovered
        intro en hen
        rcases List.mem_append.mp hen with hen | hen
        · rcases inv.discovered en hen with hs | hs
          · exact Or.inl hs
          · right
            by_cases hq : en.2 = n <;> simp [hq, hs]
        · simp only [List.mem_singleton] at hen
          rw [hen]
          simp
      · -- pending
        intro v t hvns hgv
        simp only at hgv hvns
        by_cases hvn : v = n
        · subst v
          rw [if_pos rfl] at hgv
          injection hgv with hgv
          subst t
          refine ⟨by simp, ?_, hwalkn, ?_⟩
          · intro pr hpr
            rcases List.mem_append.mp hpr with hpr | hpr
            · rcases inv.discovered (pr, n) hpr with hs | hs
              · exact absurd hs hn
              · obtain ⟨tn, hgtn⟩ := Option.isSome_iff_exists.mp hs
                obtain ⟨-, hminn, -, -⟩ := inv.pending n tn hn hgtn
                have h1 := hminn pr hpr
                have h2 : tc + 1 < tn := by
                  rcases himp with hno | himp
                  · rw [hgtn] at hno
                    simp at hno
                  · rw [hgtn] at himp
                    simpa using himp
                omega
            · simp only [List.mem_singleton, Prod.mk.injEq] at hpr
              omega
          · refine ⟨n :: lc, hnchain, ?_, ?_⟩
            · simp only [List.length_cons, hlenc]
            · intro x hx
              rcases List.mem_cons.mp hx with rfl | hx
              · exact Or.inl rfl
              · exact Or.inr (hsubc x hx)
        · rw [if_neg hvn] at hgv
          obtain ⟨hmem, hmin, hwv, l, hchain, hlen, hsub⟩ :=
            inv.pending v t hvns hgv
          refine ⟨List.mem_append.mpr (Or.inl hmem), ?_, hwv, l,
            hchain.congr ?_, hlen, hsub⟩
          · intro pr hpr
            rcases List.mem_append.mp hpr with hpr | hpr
            · exact hmin pr hpr
            · simp only [List.mem_singleton, Prod.mk.injEq] at hpr
              exact absurd hpr.2 hvn
          · intro x hx
            have hxn : x ≠ n := by
              rcases hsub x hx with rfl | hxs
              · exact hvn
              · exact fun hq => hn (hq ▸ hxs)
            simp [pupd, hxn]
      · -- frontier
        intro u hu w hw hwns hex
        simp only at hu hwns ⊢
        have hun : u ≠ n := fun hq => hn (hq ▸ hu)
        by_cases hwn : w = n
        · subst w
          by_cases hucur : u = cur
          · subst u
            exact ⟨tc, tc + 1, by simp [hcn, inv.curScore], by simp,
              by omega⟩
          · obtain ⟨tu, tw, hgu, hgw, htw⟩ :=
              inv.frontier u hu n hw hn (fun hq => absurd hq hucur)
            have h2 : tc + 1 < tw := by
              rcases himp with hno | himp
              · rw [hgw] at hno
                simp at hno
              · rw [hgw] at himp
                simpa using himp
            exact ⟨tu, tc + 1, by simp [hun, hgu], by simp, by omega⟩
        · have hside : u = cur → w ∉ n :: rem := by
            intro hucur
            simp only [List.mem_cons, not_or]
            exact ⟨hwn, hex hucur⟩
          obtain ⟨tu, tw, hgu, hgw, htw⟩ := inv.frontier u hu w hw hwns hside
          exact ⟨tu, tw, by simp [hun, hgu], by simp [hwn, hgw], htw⟩
      · -- curScore
        simp [hcn, inv.curScore]
    · rw [if_neg himp]
      -- the not-improved case: the neighbor is already scored well enough
      push_neg at himp
      obtain ⟨himp1, himp2⟩ := himp
      rcases hgtn : st.g_score n with _ | tn
      · rw [hgtn] at himp1
        simp at himp1
      have htn : tn ≤ tc + 1 := by
        rw [hgtn] at himp2
        simpa using himp2
      refine ⟨inv.sMem, inv.settled, inv.entries, inv.discovered, inv.pending,
        ?_, inv.nodupS, inv.curMem, inv.curScore, inv.curShort⟩
      intro u hu w hw hwns hex
      by_cases hwn : w = n
      · subst w
        by_cases hucur : u = cur
        · subst u
          exact ⟨tc, tn, inv.curScore, hgtn, htn⟩
        · exact inv.frontier u hu n hw hwns (fun hq => absurd hq hucur)
      · refine inv.frontier u hu w hw hwns ?_
        intro hucur
        simp only [List.mem_cons, not_or]
        exact ⟨hwn, hex hucur⟩

/-- Folding the relaxation over the unprocessed neighbors empties the
exemption list. -/
theorem pqRelax_fold_inv {g : Grid} {s : Pos} {h : Pos → Nat} {cur : Pos}
    {tc : Nat} :
    ∀ (ns : List Pos) (st : PqSt),
      (∀ n ∈ ns, n ∈ g.get_neighbors cur.1 cur.2) →
      PqMidInv g s h cur tc ns st →
      PqMidInv g s h cur tc [] (ns.foldl (pqStep1 h tc cur) st) := by
  intro ns
  induction ns with
  | nil => exact fun st _ inv => inv
  | cons n ns ih =>
    intro st hsub inv
    exact ih (pqStep1 h tc cur st n)
      (fun x hx => hsub x (by simp [hx]))
      (pqStep1_inv (hsub n (by simp)) inv)

/-- With no exemptions left, the mid invariant is the loop invariant. -/
theorem pqMidInv_close {g : Grid} {s : Pos} {h : Pos → Nat} {cur : Pos}
    {tc : Nat} {st : PqSt} (inv : PqMidInv g s h cur tc [] st) :
    PqInv g s h st :=
  ⟨inv.sMem, inv.settled, inv.entries, inv.discovered, inv.pending,
    fun u hu w hw hwns =>
      inv.frontier u hu w hw hwns (fun _ => by simp),
    inv.nodupS⟩

/-- Discarding a stale entry (lazy deletion) preserves the loop
invariant. -/
theorem pq_skip {g : Grid} {s : Pos} {h : Pos → Nat} {st st' : PqSt}
    {m : Entry} {rest : List Entry} (inv : PqInv g s h st)
    (hpop : popMin st.open_set = some (m, rest)) (hS : m.2 ∈ st.visited_set)
    (hq' : st'.open_set = rest) (hv' : st'.visited_set = st.visited_set)
    (hg' : st'.g_score = st.g_score) (hc' : st'.came_from = st.came_from) :
    PqInv g s h st' := by
  have hsub := popMin_rest_sub hpop
  refine ⟨?_, ?_, ?_, ?_, ?_, ?_, ?_⟩
  · rw [hv']; exact inv.sMem
  · intro v hv
    rw [hv'] at hv ⊢
    rw [hg', hc']
    exact inv.settled v hv
  · intro en hen
    rw [hq'] at hen
    exact inv.entries en (hsub en hen)
  · intro en hen
    rw [hq'] at hen
    rw [hv', hg']
    exact inv.discovered en (hsub en hen)
  · intro v t hv hgv
    rw [hv'] at hv
    rw [hg'] at hgv
    obtain ⟨hmem, hmin, hwv, l, hchain, hlen, hsubl⟩ := inv.pending v t hv hgv
    have hvm : v ≠ m.2 := fun hq => hv (hq ▸ hS)
    have hne : ((t + h v, v) : Entry) ≠ m := by
      intro hq
      exact hvm (congrArg Prod.snd hq)
    refine ⟨?_, ?_, hwv, l, ?_, hlen, ?_⟩
    · rw [hq']
      exact popMin_rest_mem hpop hmem hne
    · intro pr hpr
      rw [hq'] at hpr
      exact hmin pr (hsub _ hpr)
    · rw [hc']; exact hchain
    · rw [hv']; exact hsubl
  · intro u hu w hw hwns
    rw [hv'] at hu hwns
    rw [hg']
    exact inv.frontier u hu w hw hwns
  · rw [hv']; exact inv.nodupS

/-- Settling a popped unsettled state establishes the mid invariant with
every neighbor still exempt. -/
theorem pq_settle_midinv {g : Grid} {s : Pos} {h : Pos → Nat} {st st' : PqSt}
    {m : Entry} {rest : List Entry} {t : Nat} (inv : PqInv g s h st)
    (hpop : popMin st.open_set = some (m, rest)) (hnm : m.2 ∉ st.visited_set)
    (hgt : st.g_score m.2 = some t) (hft : m.1 = t + h m.2)
    (hsh : ShortestLen g s m.2 t)
    (hq' : st'.open_set = rest)
    (hv' : st'.visited_set = st.visited_set ++ [m.2])
    (hg' : st'.g_score = st.g_score) (hc' : st'.came_from = st.came_from) :
    PqMidInv g s h m.2 t (g.get_neighbors m.2.1 m.2.2) st' := by
  have hsub := popMin_rest_sub hpop
  obtain ⟨hmem0, hmin0, hw0, l0, hchain0, hlen0, hsub0⟩ :=
    inv.pending m.2 t hnm hgt
  refine ⟨?_, ?_, ?_, ?_, ?_, ?_, ?_, ?_, ?_, hsh⟩
  · rw [hv']
    exact List.mem_append.mpr (Or.inl inv.sMem)
  · intro v hv
    rw [hv'] at hv
    rw [hg', hc']
    rcases List.mem_append.mp hv with hv | hv
    · obtain ⟨tv, l, ha, hb, hcc, hd, he⟩ := inv.settled v hv
      refine ⟨tv, l, ha, hb, hcc, hd, ?_⟩
      intro x hx
      rw [hv']
      exact List.mem_append.mpr (Or.inl (he x hx))
    · simp only [List.mem_singleton] at hv
      rw [hv]
      refine ⟨t, l0, hgt, hsh, hchain0, hlen0, ?_⟩
      intro x hx
      rw [hv']
      rcases hsub0 x hx with hx' | hx'
      · exact List.mem_append.mpr (Or.inr (by simp [hx']))
      · exact List.mem_append.mpr (Or.inl hx')
  · intro en hen
    rw [hq'] at hen
    exact inv.entries en (hsub en hen)
  · intro en hen
    rw [hq'] at hen
    rw [hv', hg']
    rcases inv.discovered en (hsub en hen) with hs | hs
    · exact Or.inl (List.mem_append.mpr (Or.inl hs))
    · exact Or.inr hs
  · intro v tv hv hgv
    rw [hv'] at hv
    rw [hg'] at hgv
    have hvS : v ∉ st.visited_set := fun hq =>
      hv (List.mem_append.mpr (Or.inl hq))
    have hvm : v ≠ m.2 := fun hq => hv (List.mem_append.mpr (Or.inr (by simp [hq])))
    obtain ⟨hmem, hmin, hwv, l, hchain, hlen, hsubl⟩ :=
      inv.pending v tv hvS hgv
    have hne : ((tv + h v, v) : Entry) ≠ m := fun hq =>
      hvm (congrArg Prod.snd hq)
    refine ⟨?_, ?_, hwv, l, ?_, hlen, ?_⟩
    · rw [hq']
      exact popMin_rest_mem hpop hmem hne
    · intro pr hpr
      rw [hq'] at hpr
      exact hmin pr (hsub _ hpr)
    · rw [hc']; exact hchain
    · intro x hx
      rw [hv']
      rcases hsubl x hx with hx' | hx'
      · exact Or.inl hx'
      · exact Or.inr (List.mem_append.mpr (Or.inl hx'))
  · intro u hu w hw hwns hex
    rw [hv'] at hu hwns
    rw [hg']
    rcases List.mem_append.mp hu with hu | hu
    · have hwS : w ∉ st.visited_set := fun hq =>
        hwns (List.mem_append.mpr (Or.inl hq))
      exact inv.frontier u hu w hw hwS
    · simp only [List.mem_singleton] at hu
      exact absurd hw (hu ▸ hex (hu ▸ rfl))
  · rw [hv']
    rw [List.nodup_append]
    refine ⟨inv.nodupS, by simp, ?_⟩
    intro a ha hb
    simp only [List.mem_singleton] at hb
    exact hnm (hb ▸ ha)
  · rw [hv']
    exact List.mem_append.mpr (Or.inr (by simp))
  · rw [hg']; exact hgt

/-- Settling the seeded start entry from the initial state establishes the
mid invariant. -/
theorem pq_state0_midinv {g : Grid} {s : Pos} {h : Pos → Nat} {st st' : PqSt}
    (h0 : PqState0 s st)
    (hq' : st'.open_set = []) (hv' : st'.visited_set = [s])
    (hg' : st'.g_score = st.g_score) (hc' : st'.came_from = st.came_from) :
    PqMidInv g s h s 0 (g.get_neighbors s.1 s.2) st' := by
  obtain ⟨-, -, hgs, hcf⟩ := h0
  have hchain : ChainL g st'.came_from s s [s] := by
    refine ChainL.nil ?_
    rw [hc', hcf]
    simp [pupd]
  refine ⟨?_, ?_, ?_, ?_, ?_, ?_, ?_, ?_, ?_, shortestLen_zero⟩
  · rw [hv']; simp
  · intro v hv
    rw [hv'] at hv
    simp only [List.mem_singleton] at hv
    rw [hv]
    refine ⟨0, [s], by rw [hg', hgs]; simp, shortestLen_zero, hchain, rfl, ?_⟩
    intro x hx
    rw [hv']
    exact hx
  · intro en hen
    rw [hq'] at hen
    simp at hen
  · intro en hen
    rw [hq'] at hen
    simp at hen
  · intro v t hv hgv
    rw [hv'] at hv
    rw [hg', hgs] at hgv
    simp only [List.mem_singleton] at hv
    simp [hv] at hgv
  · intro u hu w hw hwns hex
    rw [hv'] at hu
    simp only [List.mem_singleton] at hu
    exact absurd hw (hu ▸ hex hu)
  · rw [hv']; simp
  · rw [hv']; simp
  · rw [hg', hgs]; simp

/-- One unfolding of the priority-queue loop when the pop succeeds. -/
theorem pqLoop_succ (g : Grid) (e : Pos) (h : Pos → Nat)
    (baseOf : Nat → PqSt → Pos → Nat) (f : Nat) (st : PqSt) (m : Entry)
    (rest : List Entry) (hpop : popMin st.open_set = some (m, rest)) :
    pqLoop g e h baseOf (f + 1) st =
      if m.2 ∈ st.visited_set then
        pqLoop g e h baseOf f { st with open_set := rest }
      else
        if m.2 = e then
          pqFound { st with
            open_set := rest
            visited_set := st.visited_set ++ [m.2]
            etrace := st.etrace ++ [m.2]
            settleLog := st.settleLog ++ [m.2] } e
        else
          pqLoop g e h baseOf f
            (pqRelax g h
              (baseOf m.1
                { st with
                  open_set := rest
                  visited_set := st.visited_set ++ [m.2]
                  etrace := st.etrace ++ [m.2]
                  settleLog := st.settleLog ++ [m.2] } m.2)
              m.2
              { st with
                open_set := rest
                visited_set := st.visited_set ++ [m.2]
                etrace := st.etrace ++ [m.2]
                settleLog := st.settleLog ++ [m.2] }) := by
  simp only [pqLoop, hpop]

/-- Whenever the priority-queue loop reports `found`, the reported
`path_length` is the shortest distance from start to end.  The hypothesis
on `baseOf` is discharged by both instantiations: `astar` reads
`g_score[current]`, `dijkstra` reuses the popped priority. -/
theorem pqLoop_shortest (g : Grid) (s e : Pos) (h : Pos → Nat)
    (baseOf : Nat → PqSt → Pos → Nat) (hcons : HeurCons g h)
    (hbase : ∀ (pr : Nat) (st : PqSt) (cur : Pos) (t : Nat),
      st.g_score cur = some t → (pr = t + h cur ∨ (pr = 0 ∧ t = 0)) →
      baseOf pr st cur = t) :
    ∀ (fuel : Nat) (st : PqSt), (PqState0 s st ∨ PqInv g s h st) →
      (pqLoop g e h baseOf fuel st).res.found = true →
      ShortestLen g s e ((pqLoop g e h baseOf fuel st).res.path_length) := by
  intro fuel
  induction fuel with
  | zero =>
    intro st _ hf
    simp [pqLoop, pqUnfound, PathfindingResult.init] at hf
  | succ f ih =>
    intro st hinv hf
    rcases hpop : popMin st.open_set with _ | ⟨m, rest⟩
    · rw [pqLoop, hpop] at hf
      simp [pqUnfound, PathfindingResult.init] at hf
    · rw [pqLoop_succ g e h baseOf f st m rest hpop] at hf ⊢
      rcases hinv with h0 | inv
      · -- initial state: the only entry is `(0, s)`
        have hpop2 : popMin st.open_set = some (((0 : Nat), s), ([] : List Entry)) := by
          rw [h0.1]
          simp [popMin, findMinE]
        rw [hpop] at hpop2
        have hpair := Option.some_injective _ hpop2
        have hm : m = ((0 : Nat), s) := congrArg Prod.fst hpair
        have hr : rest = ([] : List Entry) := congrArg Prod.snd hpair
        subst hm
        subst hr
        have hmem : ¬(((0 : Nat), s).2 ∈ st.visited_set) := by
          rw [h0.2.1]
          simp
        rw [if_neg hmem] at hf ⊢
        by_cases hse : (((0 : Nat), s) : Entry).2 = e
        · rw [if_pos hse] at hf ⊢
          obtain rfl : s = e := hse
          have hchain : ChainL g st.came_from s s [s] := by
            refine ChainL.nil ?_
            rw [h0.2.2.2]
            simp [pupd]
          have hwp := hchain.walkParent_eq
            ((st.visited_set ++ [(((0 : Nat), s) : Entry).2]).length + 1)
            (by simp)
          simp only [pqFound]
          rw [hwp]
          simpa using shortestLen_zero
        · rw [if_neg hse] at hf ⊢
          have hb := hbase ((0 : Nat), s).1
            ({ st with
              open_set := ([] : List Entry)
              visited_set := st.visited_set ++ [(((0 : Nat), s) : Entry).2]
              etrace := st.etrace ++ [(((0 : Nat), s) : Entry).2]
              settleLog := st.settleLog ++ [(((0 : Nat), s) : Entry).2] })
            (((0 : Nat), s) : Entry).2 0
            (by rw [h0.2.2.1]; simp) (Or.inr ⟨rfl, rfl⟩)
          rw [hb] at hf ⊢
          have midinv := @pq_state0_midinv g s h st
            { st with
              open_set := ([] : List Entry)
              visited_set := st.visited_set ++ [(((0 : Nat), s) : Entry).2]
              etrace := st.etrace ++ [(((0 : Nat), s) : Entry).2]
              settleLog := st.settleLog ++ [(((0 : Nat), s) : Entry).2] }
            h0 rfl (by rw [h0.2.1]; simp) rfl rfl
          rw [pqRelax_eq_foldl] at hf ⊢
          exact ih _ (Or.inr (pqMidInv_close
            (pqRelax_fold_inv _ _ (fun n hn => hn) midinv))) hf
      · by_cases hmem : m.2 ∈ st.visited_set
        · rw [if_pos hmem] at hf ⊢
          exact ih _ (Or.inr (pq_skip inv hpop hmem rfl rfl rfl rfl)) hf
        · rw [if_neg hmem] at hf ⊢
          obtain ⟨t, hgt, hft, hsh⟩ := pq_settle inv hcons hpop hmem
          by_cases hme : m.2 = e
          · rw [if_pos hme] at hf ⊢
            obtain ⟨-, -, -, l0, hchain0, hlen0, hsub0⟩ :=
              inv.pending m.2 t hmem hgt
            have hsub' : ∀ x ∈ l0, x ∈ st.visited_set ++ [m.2] := by
              intro x hx
              rcases hsub0 x hx with hx' | hx'
              · exact List.mem_append.mpr (Or.inr (by simp [hx']))
              · exact List.mem_append.mpr (Or.inl hx')
            have hlen' : l0.length ≤ (st.visited_set ++ [m.2]).length + 1 :=
              le_trans (hchain0.length_le hsub') (Nat.le_succ _)
            have hwp := hchain0.walkParent_eq
              ((st.visited_set ++ [m.2]).length + 1) hlen'
            rw [← hme]
            simp only [pqFound]
            rw [hwp]
            simp only [List.length_reverse, hlen0]
            simpa using hsh
          · rw [if_neg hme] at hf ⊢
            have hb := hbase m.1
              ({ st with
                open_set := rest
                visited_set := st.visited_set ++ [m.2]
                etrace := st.etrace ++ [m.2]
                settleLog := st.settleLog ++ [m.2] })
              m.2 t hgt (Or.inl hft)
            rw [hb] at hf ⊢
            have midinv := @pq_settle_midinv _ _ _ _
              { st with
                open_set := rest
                visited_set := st.visited_set ++ [m.2]
                etrace := st.etrace ++ [m.2]
                settleLog := st.settleLog ++ [m.2] }
              _ _ _ inv hpop hmem hgt hft hsh rfl rfl rfl rfl
            rw [pqRelax_eq_foldl] at hf ⊢
            exact ih _ (Or.inr (pqMidInv_close
              (pqRelax_fold_inv _ _ (fun n hn => hn) midinv))) hf

/-- Manhattan distance to the end cell is consistent along grid edges. -/
theorem manhattan_consistent (g : Grid) (e : Pos) :
    HeurCons g (manhattan e) := by
  intro u v hedge
  obtain ⟨-, d, hd, rfl⟩ := mem_get_neighbors.mp hedge
  simp only [Grid.directions, List.mem_cons, List.not_mem_nil, or_false] at hd
  rcases hd with rfl | rfl | rfl | rfl <;> simp only [manhattan] <;> omega

theorem zeroHeur_consistent (g : Grid) : HeurCons g (fun _ => 0) := by
  intro u v _
  exact Nat.zero_le _

/-- `astar` reports a shortest path length whenever it reports success. -/
theorem astar_found_shortest {g : Grid} {s e : Pos}
    (hf : (astar g s e).found = true) :
    ShortestLen g s e ((astar g s e).path_length) := by
  unfold astar astarRun pqRun at hf ⊢
  by_cases hv : g.is_valid s.1 s.2 ∧ g.is_valid e.1 e.2
  · rw [if_pos hv] at hf ⊢
    refine pqLoop_shortest g s e (manhattan e) _ (manhattan_consistent g e)
      ?_ _ _ (Or.inl ⟨rfl, rfl, rfl, rfl⟩) hf
    intro pr st cur t hg _
    simp [hg]
  · rw [if_neg hv] at hf
    simp [PathfindingResult.init] at hf

/-- `dijkstra` reports a shortest path length whenever it reports
success. -/
theorem dijkstra_found_shortest {g : Grid} {s e : Pos}
    (hf : (dijkstra g s e).found = true) :
    ShortestLen g s e ((dijkstra g s e).path_length) := by
  unfold dijkstra dijkstraRun pqRun at hf ⊢
  by_cases hv : g.is_valid s.1 s.2 ∧ g.is_valid e.1 e.2
  · rw [if_pos hv] at hf ⊢
    refine pqLoop_shortest g s e (fun _ => 0) _ (zeroHeur_consistent g)
      ?_ _ _ (Or.inl ⟨rfl, rfl, rfl, rfl⟩) hf
    intro pr st cur t hg hor
    show pr = t
    rcases hor with h1 | ⟨h1, h2⟩
    · rw [h1]
      show t + 0 = t
      omega
    · rw [h1, h2]
  · rw [if_neg hv] at hf
    simp [PathfindingResult.init] at hf

/-- A tiny grid shared by concrete witnesses: one row, two columns, no
walls. -/
def gridW : Grid := Grid.mk' 1 2

end SearchEngine

namespace SearchEngine

/-- **C1.** For every grid and every start/end pair on which `bfs`,
`dijkstra` and `astar` all succeed, the three returned `path_length`s are
identical, and this common value is the minimum edge count of any
start-to-end path in the grid under 4-directional unit-cost moves. -/
theorem claim_C1_optimality_equivalence (g : Grid) (s e : Pos)
    (hb : (bfs g s e).found = true) (hd : (dijkstra g s e).found = true)
    (ha : (astar g s e).found = true) :
    (bfs g s e).path_length = (dijkstra g s e).path_length ∧
    (bfs g s e).path_length = (astar g s e).path_length ∧
    ShortestLen g s e ((bfs g s e).path_length) := by
  have h1 := bfs_found_shortest hb
  have h2 := dijkstra_found_shortest hd
  have h3 := astar_found_shortest ha
  exact ⟨shortestLen_unique h1 h2, shortestLen_unique h1 h3, h1⟩

theorem claim_C1_optimality_equivalence_witness :
    (bfs gridW (0, 0) (0, 1)).found = true ∧
    (dijkstra gridW (0, 0) (0, 1)).found = true ∧
    (astar gridW (0, 0) (0, 1)).found = true ∧
    ((bfs gridW (0, 0) (0, 1)).path_length =
        (dijkstra gridW (0, 0) (0, 1)).path_length ∧
      (bfs gridW (0, 0) (0, 1)).path_length =
        (astar gridW (0, 0) (0, 1)).path_length ∧
      ShortestLen gridW (0, 0) (0, 1) ((bfs gridW (0, 0) (0, 1)).path_length)) :=
  ⟨by decide, by decide, by decide,
    claim_C1_optimality_equivalence gridW (0, 0) (0, 1)
      (by decide) (by decide) (by decide)⟩

/-- **C5.** When the start or end position is out of bounds or a wall,
each of the four algorithms returns immediately: `found = false`, empty
path, empty exploring and visited traces, and `nodes_explored = 0` (and,
in this embedding, they are total functions, so no exception arises). -/
theorem claim_C5_invalid_endpoints (g : Grid) (s e : Pos)
    (h : ¬ g.is_valid s.1 s.2 ∨ ¬ g.is_valid e.1 e.2) :
    bfs g s e = PathfindingResult.init ∧
    dfs g s e = PathfindingResult.init ∧
    astar g s e = PathfindingResult.init ∧
    dijkstra g s e = PathfindingResult.init ∧
    PathfindingResult.init.found = false ∧
    PathfindingResult.init.path = [] ∧
    PathfindingResult.init.exploring = [] ∧
    PathfindingResult.init.visited = [] ∧
    PathfindingResult.init.nodes_explored = 0 := by
  have hg : ¬ (g.is_valid s.1 s.2 ∧ g.is_valid e.1 e.2) := by tauto
  refine ⟨?_, ?_, ?_, ?_, rfl, rfl, rfl, rfl, rfl⟩
  · unfold bfs bfsRun
    rw [if_neg hg]
  · unfold dfs dfsRun
    rw [if_neg hg]
  · unfold astar astarRun pqRun
    rw [if_neg hg]
  · unfold dijkstra dijkstraRun pqRun
    rw [if_neg hg]

theorem claim_C5_invalid_endpoints_witness :
    (¬ gridW.is_valid (5, 0).1 (5, 0).2 ∨ ¬ gridW.is_valid (0, 0).1 (0, 0).2) ∧
    bfs gridW (5, 0) (0, 0) = PathfindingResult.init :=
  ⟨by decide,
    (claim_C5_invalid_endpoints gridW (5, 0) (0, 0) (by decide)).1⟩

/-- **C10.** `Grid.get_cell` is total in this embedding, and every
out-of-bounds position yields `WALL`. -/
theorem claim_C10_get_cell_total (g : Grid) (row col : Int)
    (h : ¬ g.inB row col) : g.get_cell row col = CellType.WALL := by
  unfold Grid.get_cell
  rw [if_neg h]

theorem claim_C10_get_cell_total_witness :
    ¬ gridW.inB (-1) 0 ∧ gridW.get_cell (-1) 0 = CellType.WALL :=
  ⟨by decide, claim_C10_get_cell_total gridW (-1) 0 (by decide)⟩

/-! ## Trace order: `exploring`, `visited` and the ghost event logs -/

/-- The subsequence of first occurrences, skipping elements already seen. -/
def firstOccAux (seen : List Pos) : List Pos → List Pos
  | [] => []
  | x :: xs =>
    if x ∈ seen then firstOccAux seen xs
    else x :: firstOccAux (x :: seen) xs

/-- The distinct elements of a list in order of first occurrence. -/
def firstOcc (l : List Pos) : List Pos := firstOccAux [] l

theorem firstOccAux_mem {l : List Pos} :
    ∀ {seen x}, x ∈ firstOccAux seen l ↔ x ∈ l ∧ x ∉ seen := by
  induction l with
  | nil => intro seen x; simp [firstOccAux]
  | cons y ys ih =>
    intro seen x
    by_cases hy : y ∈ seen
    · simp only [firstOccAux, if_pos hy, ih, List.mem_cons]
      constructor
      · rintro ⟨h1, h2⟩
        exact ⟨Or.inr h1, h2⟩
      · rintro ⟨h1 | h1, h2⟩
        · exact absurd (h1 ▸ hy) h2
        · exact ⟨h1, h2⟩
    · simp only [firstOccAux, if_neg hy, List.mem_cons, ih]
      constructor
      · rintro (rfl | ⟨h1, h2⟩)
        · exact ⟨Or.inl rfl, hy⟩
        · simp only [List.mem_cons, not_or] at h2
          exact ⟨Or.inr h1, h2.2⟩
      · rintro ⟨rfl | h1, h2⟩
        · exact Or.inl rfl
        · by_cases hxy : x = y
          · exact Or.inl hxy
          · exact Or.inr ⟨h1, by simp [hxy, h2]⟩

theorem firstOccAux_nodup {l : List Pos} :
    ∀ {seen}, (firstOccAux seen l).Nodup := by
  induction l with
  | nil => intro seen; simp [firstOccAux]
  | cons y ys ih =>
    intro seen
    by_cases hy : y ∈ seen
    · simp only [firstOccAux, if_pos hy]
      exact ih
    · simp only [firstOccAux, if_neg hy]
      refine List.nodup_cons.mpr ⟨?_, ih⟩
      intro hmem
      exact ((firstOccAux_mem.mp hmem).2) (by simp)

theorem firstOcc_nodup (l : List Pos) : (firstOcc l).Nodup :=
  firstOccAux_nodup

theorem firstOcc_mem {l : List Pos} {x : Pos} : x ∈ firstOcc l ↔ x ∈ l := by
  simp [firstOcc, firstOccAux_mem]

theorem firstOccAux_append_singleton {x : Pos} :
    ∀ (l : List Pos) (seen : List Pos),
      firstOccAux seen (l ++ [x]) =
        firstOccAux seen l ++ (if x ∈ seen ∨ x ∈ l then [] else [x]) := by
  intro l
  induction l with
  | nil =>
    intro seen
    by_cases hx : x ∈ seen <;> simp [firstOccAux, hx]
  | cons y ys ih =>
    intro seen
    by_cases hy : y ∈ seen
    · simp only [List.cons_append, firstOccAux, if_pos hy, List.append_eq]
      rw [ih seen]
      have hcond : (x ∈ seen ∨ x ∈ ys) ↔ (x ∈ seen ∨ x ∈ y :: ys) := by
        simp only [List.mem_cons]
        constructor
        · rintro (h1 | h1)
          · exact Or.inl h1
          · exact Or.inr (Or.inr h1)
        · rintro (h1 | rfl | h1)
          · exact Or.inl h1
          · exact Or.inl hy
          · exact Or.inr h1
      by_cases hc : x ∈ seen ∨ x ∈ ys
      · rw [if_pos hc, if_pos (hcond.mp hc)]
      · rw [if_neg hc, if_neg (fun hq => hc (hcond.mpr hq))]
    · simp only [List.cons_append, firstOccAux, if_neg hy, List.append_eq]
      rw [ih (y :: seen)]
      have hcond : (x ∈ y :: seen ∨ x ∈ ys) ↔ (x ∈ seen ∨ x ∈ y :: ys) := by
        simp only [List.mem_cons]
        tauto
      by_cases hc : x ∈ y :: seen ∨ x ∈ ys
      · rw [if_pos hc, if_pos (hcond.mp hc)]
      · rw [if_neg hc, if_neg (fun hq => hc (hcond.mpr hq))]

theorem firstOcc_append_singleton (l : List Pos) (x : Pos) :
    firstOcc (l ++ [x]) =
      firstOcc l ++ (if x ∈ l then [] else [x]) := by
  simp [firstOcc, firstOccAux_append_singleton]

theorem firstOccAux_of_disjoint {l : List Pos} :
    ∀ {seen}, (∀ x ∈ seen, x ∉ l) → l.Nodup → firstOccAux seen l = l := by
  induction l with
  | nil => intro seen _ _; rfl
  | cons y ys ih =>
    intro seen hdisj hnd
    have hy : y ∉ seen := fun hq => hdisj y hq (by simp)
    simp only [firstOccAux, if_neg hy]
    rw [ih ?_ (List.nodup_cons.mp hnd).2]
    intro x hx
    rcases List.mem_cons.mp hx with rfl | hx
    · exact (List.nodup_cons.mp hnd).1
    · exact fun hq => hdisj x hx (by simp [hq])

theorem firstOcc_of_nodup {l : List Pos} (h : l.Nodup) : firstOcc l = l :=
  firstOccAux_of_disjoint (by simp) h

theorem firstOccAux_congr_seen {l : List Pos} :
    ∀ {s1 s2 : List Pos}, (∀ z, z ∈ s1 ↔ z ∈ s2) →
      firstOccAux s1 l = firstOccAux s2 l := by
  induction l with
  | nil => intro s1 s2 _; rfl
  | cons y ys ih =>
    intro s1 s2 hiff
    by_cases hy : y ∈ s1
    · simp only [firstOccAux, if_pos hy, if_pos ((hiff y).mp hy)]
      exact ih hiff
    · simp only [firstOccAux, if_neg hy,
        if_neg (fun hq => hy ((hiff y).mpr hq))]
      congr 1
      refine ih ?_
      intro z
      simp only [List.mem_cons, hiff z]

theorem firstOccAux_drop_seen {x : Pos} {l : List Pos} (hx : x ∉ l) :
    ∀ {seen : List Pos}, firstOccAux (x :: seen) l = firstOccAux seen l := by
  induction l with
  | nil => intro seen; rfl
  | cons y ys ih =>
    intro seen
    simp only [List.mem_cons, not_or] at hx
    have hyx : ¬(y = x) := fun hq => hx.1 hq.symm
    by_cases hy : y ∈ seen
    · simp only [firstOccAux, List.mem_cons, if_pos (Or.inr hy), if_pos hy]
      exact ih hx.2
    · have h1 : ¬(y ∈ x :: seen) := by simp [hyx, hy]
      simp only [firstOccAux, if_neg h1, if_neg hy]
      congr 1
      rw [firstOccAux_congr_seen
        (show ∀ z, z ∈ y :: x :: seen ↔ z ∈ x :: y :: seen by
          intro z; simp; tauto)]
      exact ih hx.2

theorem firstOcc_cons_of_not_mem {l : List Pos} {x : Pos} (h : x ∉ l) :
    firstOcc (x :: l) = x :: firstOcc l := by
  simp only [firstOcc, firstOccAux, if_neg (List.not_mem_nil x)]
  congr 1
  exact firstOccAux_drop_seen h

/-- Trace bookkeeping invariant of the `bfs`/`dfs` loop: `result.visited`
is exactly the push log (pushes are guarded by the visited set, so each
state is pushed at most once and the start is never pushed), and
`result.exploring` is exactly the settle log. -/
structure BfsTr (s : Pos) (st : BfsSt) : Prop where
  veq : st.vtrace = st.pushLog
  vnodup : st.pushLog.Nodup
  vsub : ∀ x ∈ st.pushLog, x ∈ st.vset
  sNotPush : s ∉ st.pushLog
  sMem : s ∈ st.vset
  eeq : st.etrace = st.settleLog

theorem bfsInit_tr (s : Pos) : BfsTr s (bfsInit s) :=
  ⟨rfl, by simp [bfsInit], by simp [bfsInit], by simp [bfsInit],
    by simp [bfsInit], rfl⟩

theorem bfsStep1_tr {s cur n : Pos} {st : BfsSt} (h : BfsTr s st) :
    BfsTr s (bfsStep1 cur st n) := by
  by_cases hn : n ∈ st.vset
  · simp only [bfsStep1, if_pos hn]
    exact h
  · simp only [bfsStep1, if_neg hn]
    have hnp : n ∉ st.pushLog := fun hq => hn (h.vsub n hq)
    refine ⟨by simp [h.veq], ?_, ?_, ?_, by simp [h.sMem], by simp [h.eeq]⟩
    · rw [List.nodup_append]
      refine ⟨h.vnodup, by simp, ?_⟩
      intro a ha hb
      simp only [List.mem_singleton] at hb
      exact hnp (hb ▸ ha)
    · intro x hx
      simp only [List.mem_append, List.mem_singleton] at hx ⊢
      rcases hx with hx | hx
      · exact Or.inl (h.vsub x hx)
      · exact Or.inr hx
    · simp only [List.mem_append, List.mem_singleton]
      push_neg
      exact ⟨h.sNotPush, fun hq => hn (hq ▸ h.sMem)⟩

theorem bfsRelax_tr {s cur : Pos} :
    ∀ (ns : List Pos) (st : BfsSt), BfsTr s st →
      BfsTr s (ns.foldl (bfsStep1 cur) st) := by
  intro ns
  induction ns with
  | nil => exact fun st h => h
  | cons n ns ih => exact fun st h => ih _ (bfsStep1_tr h)

/-- The `dfs` push body: identical to `bfsStep1` except the stack push. -/
def dfsStep1 (cur : Pos) (st : BfsSt) (n : Pos) : BfsSt :=
  if n ∈ st.vset then st
  else
    { st with
      vset := st.vset ++ [n]
      par := pupd st.par n (some cur)
      queue := n :: st.queue
      vtrace := st.vtrace ++ [n]
      pushLog := st.pushLog ++ [n] }

theorem dfsRelax_eq_foldl (g : Grid) (cur : Pos) (st : BfsSt) :
    dfsRelax g cur st =
      (g.get_neighbors cur.1 cur.2).foldl (dfsStep1 cur) st := rfl

theorem dfsStep1_tr {s cur n : Pos} {st : BfsSt} (h : BfsTr s st) :
    BfsTr s (dfsStep1 cur st n) := by
  by_cases hn : n ∈ st.vset
  · simp only [dfsStep1, if_pos hn]
    exact h
  · simp only [dfsStep1, if_neg hn]
    have hnp : n ∉ st.pushLog := fun hq => hn (h.vsub n hq)
    refine ⟨by simp [h.veq], ?_, ?_, ?_, by simp [h.sMem], by simp [h.eeq]⟩
    · rw [List.nodup_append]
      refine ⟨h.vnodup, by simp, ?_⟩
      intro a ha hb
      simp only [List.mem_singleton] at hb
      exact hnp (hb ▸ ha)
    · intro x hx
      simp only [List.mem_append, List.mem_singleton] at hx ⊢
      rcases hx with hx | hx
      · exact Or.inl (h.vsub x hx)
      · exact Or.inr hx
    · simp only [List.mem_append, List.mem_singleton]
      push_neg
      exact ⟨h.sNotPush, fun hq => hn (hq ▸ h.sMem)⟩

theorem dfsRelax_tr {s cur : Pos} :
    ∀ (ns : List Pos) (st : BfsSt), BfsTr s st →
      BfsTr s (ns.foldl (dfsStep1 cur) st) := by
  intro ns
  induction ns with
  | nil => exact fun st h => h
  | cons n ns ih => exact fun st h => ih _ (dfsStep1_tr h)

/-- Trace characterization of a completed `bfs` loop run. -/
theorem bfsLoop_trace (g : Grid) (s e : Pos) :
    ∀ (fuel : Nat) (st : BfsSt), BfsTr s st →
      (bfsLoop g e fuel st).res.visited = (bfsLoop g e fuel st).pushLog ∧
      (bfsLoop g e fuel st).res.exploring = (bfsLoop g e fuel st).settleLog ∧
      (bfsLoop g e fuel st).pushLog.Nodup ∧
      s ∉ (bfsLoop g e fuel st).pushLog := by
  intro fuel
  induction fuel with
  | zero =>
    intro st htr
    simp only [bfsLoop, bfsUnfound]
    exact ⟨htr.veq, htr.eeq, htr.vnodup, htr.sNotPush⟩
  | succ f ih =>
    intro st htr
    rcases hq : st.queue with _ | ⟨cur, rest⟩
    · rw [bfsLoop, hq]
      simp only [bfsUnfound]
      exact ⟨htr.veq, htr.eeq, htr.vnodup, htr.sNotPush⟩
    · simp only [bfsLoop, hq]
      have htr1 : BfsTr s { st with
          queue := rest
          etrace := st.etrace ++ [cur]
          settleLog := st.settleLog ++ [cur] } :=
        ⟨htr.veq, htr.vnodup, htr.vsub, htr.sNotPush, htr.sMem,
          by simp [htr.eeq]⟩
      by_cases hce : cur = e
      · rw [if_pos hce]
        simp only [bfsFound]
        exact ⟨htr1.veq, htr1.eeq, htr1.vnodup, htr1.sNotPush⟩
      · rw [if_neg hce]
        exact ih _ (bfsRelax_tr _ _ htr1)

/-- Trace characterization of a completed `dfs` loop run. -/
theorem dfsLoop_trace (g : Grid) (s e : Pos) :
    ∀ (fuel : Nat) (st : BfsSt), BfsTr s st →
      (dfsLoop g e fuel st).res.visited = (dfsLoop g e fuel st).pushLog ∧
      (dfsLoop g e fuel st).res.exploring = (dfsLoop g e fuel st).settleLog ∧
      (dfsLoop g e fuel st).pushLog.Nodup ∧
      s ∉ (dfsLoop g e fuel st).pushLog := by
  intro fuel
  induction fuel with
  | zero =>
    intro st htr
    simp only [dfsLoop, bfsUnfound]
    exact ⟨htr.veq, htr.eeq, htr.vnodup, htr.sNotPush⟩
  | succ f ih =>
    intro st htr
    rcases hq : st.queue with _ | ⟨cur, rest⟩
    · rw [dfsLoop, hq]
      simp only [bfsUnfound]
      exact ⟨htr.veq, htr.eeq, htr.vnodup, htr.sNotPush⟩
    · simp only [dfsLoop, hq]
      have htr1 : BfsTr s { st with
          queue := rest
          etrace := st.etrace ++ [cur]
          settleLog := st.settleLog ++ [cur] } :=
        ⟨htr.veq, htr.vnodup, htr.vsub, htr.sNotPush, htr.sMem,
          by simp [htr.eeq]⟩
      by_cases hce : cur = e
      · rw [if_pos hce]
        simp only [bfsFound]
        exact ⟨htr1.veq, htr1.eeq, htr1.vnodup, htr1.sNotPush⟩
      · rw [if_neg hce]
        exact ih _ (dfsRelax_tr _ _ htr1)

/-- Trace characterization of `bfs`. -/
theorem bfsRun_trace (g : Grid) (s e : Pos) :
    (bfsRun g s e).res.visited = (bfsRun g s e).pushLog ∧
    (bfsRun g s e).res.exploring = (bfsRun g s e).settleLog ∧
    (bfsRun g s e).pushLog.Nodup ∧
    s ∉ (bfsRun g s e).pushLog := by
  unfold bfsRun
  by_cases hv : g.is_valid s.1 s.2 ∧ g.is_valid e.1 e.2
  · rw [if_pos hv]
    exact bfsLoop_trace g s e (bfsFuel g) (bfsInit s) (bfsInit_tr s)
  · rw [if_neg hv]
    exact ⟨rfl, rfl, by simp, by simp⟩

/-- Trace bookkeeping invariant of the priority-queue loop:
`result.visited` lists the distinct pushed states in first-push order
(re-pushes of improved states are skipped by the `not in result.visited`
guard), the start state is seeded but never pushed, and
`result.exploring` is exactly the settle log. -/
structure PqTr (s : Pos) (st : PqSt) : Prop where
  veq : st.vtrace = firstOcc st.pushLog
  sNotPush : s ∉ st.pushLog
  eeq : st.etrace = st.settleLog

theorem pqStep1_tr {s cur n : Pos} {h : Pos → Nat} {base : Nat} {st : PqSt}
    (htr : PqTr s st) (hs : s ∈ st.visited_set) :
    PqTr s (pqStep1 h base cur st n) := by
  by_cases hn : n ∈ st.visited_set
  · simp only [pqStep1, if_pos hn]
    exact htr
  · simp only [pqStep1, if_neg hn]
    by_cases himp : (st.g_score n).isNone ∨ base + 1 < (st.g_score n).getD 0
    · rw [if_pos himp]
      have hns : n ≠ s := fun hq => hn (hq ▸ hs)
      refine ⟨?_, ?_, htr.eeq⟩
      · simp only
        rw [firstOcc_append_singleton, htr.veq]
        by_cases hmem : n ∈ st.pushLog
        · rw [if_pos (firstOcc_mem.mpr hmem), if_pos hmem]
          simp
        · rw [if_neg (fun hq => hmem (firstOcc_mem.mp hq)), if_neg hmem]
      · simp only [List.mem_append, List.mem_singleton]
        push_neg
        exact ⟨htr.sNotPush, fun hq => hns hq.symm⟩
    · rw [if_neg himp]
      exact htr

theorem pqRelax_tr {s cur : Pos} {h : Pos → Nat} {base : Nat} :
    ∀ (ns : List Pos) (st : PqSt), PqTr s st → s ∈ st.visited_set →
      PqTr s (ns.foldl (pqStep1 h base cur) st) := by
  intro ns
  induction ns with
  | nil => exact fun st htr _ => htr
  | cons n ns ih =>
    intro st htr hs
    have hs' : s ∈ (pqStep1 h base cur st n).visited_set := by
      by_cases hn : n ∈ st.visited_set
      · simpa only [pqStep1, if_pos hn] using hs
      · simp only [pqStep1, if_neg hn]
        by_cases himp : (st.g_score n).isNone ∨
            base + 1 < (st.g_score n).getD 0
        · rw [if_pos himp]
          exact hs
        · rw [if_neg himp]
          exact hs
    exact ih _ (pqStep1_tr htr hs) hs'

/-- Trace characterization of a completed priority-queue loop run.  The
loop invariant is carried along to know the start state is settled before
any push happens. -/
theorem pqLoop_trace (g : Grid) (s e : Pos) (h : Pos → Nat)
    (baseOf : Nat → PqSt → Pos → Nat) (hcons : HeurCons g h)
    (hbase : ∀ (pr : Nat) (st : PqSt) (cur : Pos) (t : Nat),
      st.g_score cur = some t → (pr = t + h cur ∨ (pr = 0 ∧ t = 0)) →
      baseOf pr st cur = t) :
    ∀ (fuel : Nat) (st : PqSt), (PqState0 s st ∨ PqInv g s h st) →
      PqTr s st →
      (pqLoop g e h baseOf fuel st).res.visited =
        firstOcc (pqLoop g e h baseOf fuel st).pushLog ∧
      s ∉ (pqLoop g e h baseOf fuel st).pushLog ∧
      (pqLoop g e h baseOf fuel st).res.exploring =
        (pqLoop g e h baseOf fuel st).settleLog := by
  intro fuel
  induction fuel with
  | zero =>
    intro st _ htr
    simp only [pqLoop, pqUnfound]
    exact ⟨htr.veq, htr.sNotPush, htr.eeq⟩
  | succ f ih =>
    intro st hinv htr
    rcases hpop : popMin st.open_set with _ | ⟨m, rest⟩
    · rw [pqLoop, hpop]
      simp only [pqUnfound]
      exact ⟨htr.veq, htr.sNotPush, htr.eeq⟩
    · rw [pqLoop_succ g e h baseOf f st m rest hpop]
      rcases hinv with h0 | inv
      · have hpop2 : popMin st.open_set =
            some (((0 : Nat), s), ([] : List Entry)) := by
          rw [h0.1]
          simp [popMin, findMinE]
        rw [hpop] at hpop2
        have hpair := Option.some_injective _ hpop2
        have hm : m = ((0 : Nat), s) := congrArg Prod.fst hpair
        have hr : rest = ([] : List Entry) := congrArg Prod.snd hpair
        subst hm
        subst hr
        have hmem : ¬(((0 : Nat), s).2 ∈ st.visited_set) := by
          rw [h0.2.1]
          simp
        rw [if_neg hmem]
        have htr2 : PqTr s { st with
            open_set := ([] : List Entry)
            visited_set := st.visited_set ++ [(((0 : Nat), s) : Entry).2]
            etrace := st.etrace ++ [(((0 : Nat), s) : Entry).2]
            settleLog := st.settleLog ++ [(((0 : Nat), s) : Entry).2] } :=
          ⟨htr.veq, htr.sNotPush, by simp [htr.eeq]⟩
        by_cases hse : (((0 : Nat), s) : Entry).2 = e
        · rw [if_pos hse]
          simp only [pqFound]
          exact ⟨htr2.veq, htr2.sNotPush, htr2.eeq⟩
        · rw [if_neg hse]
          have hb := hbase ((0 : Nat), s).1
            ({ st with
              open_set := ([] : List Entry)
              visited_set := st.visited_set ++ [(((0 : Nat), s) : Entry).2]
              etrace := st.etrace ++ [(((0 : Nat), s) : Entry).2]
              settleLog := st.settleLog ++ [(((0 : Nat), s) : Entry).2] })
            (((0 : Nat), s) : Entry).2 0
            (by rw [h0.2.2.1]; simp) (Or.inr ⟨rfl, rfl⟩)
          rw [hb]
          have midinv := @pq_state0_midinv g s h st
            { st with
              open_set := ([] : List Entry)
              visited_set := st.visited_set ++ [(((0 : Nat), s) : Entry).2]
              etrace := st.etrace ++ [(((0 : Nat), s) : Entry).2]
              settleLog := st.settleLog ++ [(((0 : Nat), s) : Entry).2] }
            h0 rfl (by rw [h0.2.1]; simp) rfl rfl
          rw [pqRelax_eq_foldl]
          refine ih _ (Or.inr (pqMidInv_close
            (pqRelax_fold_inv _ _ (fun n hn => hn) midinv))) ?_
          refine pqRelax_tr _ _ htr2 ?_
          simp
      · by_cases hmem : m.2 ∈ st.visited_set
        · rw [if_pos hmem]
          exact ih _ (Or.inr (pq_skip inv hpop hmem rfl rfl rfl rfl))
            ⟨htr.veq, htr.sNotPush, htr.eeq⟩
        · rw [if_neg hmem]
          obtain ⟨t, hgt, hft, hsh⟩ := pq_settle inv hcons hpop hmem
          have htr2 : PqTr s { st with
              open_set := rest
              visited_set := st.visited_set ++ [m.2]
              etrace := st.etrace ++ [m.2]
              settleLog := st.settleLog ++ [m.2] } :=
            ⟨htr.veq, htr.sNotPush, by simp [htr.eeq]⟩
          by_cases hme : m.2 = e
          · rw [if_pos hme]
            simp only [pqFound]
            exact ⟨htr2.veq, htr2.sNotPush, htr2.eeq⟩
          · rw [if_neg hme]
            have hb := hbase m.1
              ({ st with
                open_set := rest
                visited_set := st.visited_set ++ [m.2]
                etrace := st.etrace ++ [m.2]
                settleLog := st.settleLog ++ [m.2] })
              m.2 t hgt (Or.inl hft)
            rw [hb]
            have midinv := @pq_settle_midinv _ _ _ _
              { st with
                open_set := rest
                visited_set := st.visited_set ++ [m.2]
                etrace := st.etrace ++ [m.2]
                settleLog := st.settleLog ++ [m.2] }
              _ _ _ inv hpop hmem hgt hft hsh rfl rfl rfl rfl
            rw [pqRelax_eq_foldl]
            refine ih _ (Or.inr (pqMidInv_close
              (pqRelax_fold_inv _ _ (fun n hn => hn) midinv))) ?_
            refine pqRelax_tr _ _ htr2 ?_
            simp [inv.sMem]

/-- Trace characterization of `astar`. -/
theorem astarRun_trace (g : Grid) (s e : Pos) :
    (astarRun g s e).res.visited = firstOcc (astarRun g s e).pushLog ∧
    s ∉ (astarRun g s e).pushLog ∧
    (astarRun g s e).res.exploring = (astarRun g s e).settleLog := by
  unfold astarRun pqRun
  by_cases hv : g.is_valid s.1 s.2 ∧ g.is_valid e.1 e.2
  · rw [if_pos hv]
    refine pqLoop_trace g s e (manhattan e) _ (manhattan_consistent g e)
      ?_ _ _ (Or.inl ⟨rfl, rfl, rfl, rfl⟩) ⟨rfl, by simp, rfl⟩
    intro pr st cur t hg _
    simp [hg]
  · rw [if_neg hv]
    exact ⟨rfl, by simp, rfl⟩

/-- Trace characterization of `dijkstra`. -/
theorem dijkstraRun_trace (g : Grid) (s e : Pos) :
    (dijkstraRun g s e).res.visited = firstOcc (dijkstraRun g s e).pushLog ∧
    s ∉ (dijkstraRun g s e).pushLog ∧
    (dijkstraRun g s e).res.exploring = (dijkstraRun g s e).settleLog := by
  unfold dijkstraRun pqRun
  by_cases hv : g.is_valid s.1 s.2 ∧ g.is_valid e.1 e.2
  · rw [if_pos hv]
    refine pqLoop_trace g s e (fun _ => 0) _ (zeroHeur_consistent g)
      ?_ _ _ (Or.inl ⟨rfl, rfl, rfl, rfl⟩) ⟨rfl, by simp, rfl⟩
    intro pr st cur t hg hor
    show pr = t
    rcases hor with h1 | ⟨h1, h2⟩
    · rw [h1]
      show t + 0 = t
      omega
    · rw [h1, h2]
  · rw [if_neg hv]
    exact ⟨rfl, by simp, rfl⟩

/-- Trace characterization of `dfs`. -/
theorem dfsRun_trace (g : Grid) (s e : Pos) :
    (dfsRun g s e).res.visited = (dfsRun g s e).pushLog ∧
    (dfsRun g s e).res.exploring = (dfsRun g s e).settleLog ∧
    (dfsRun g s e).pushLog.Nodup ∧
    s ∉ (dfsRun g s e).pushLog := by
  unfold dfsRun
  by_cases hv : g.is_valid s.1 s.2 ∧ g.is_valid e.1 e.2
  · rw [if_pos hv]
    exact dfsLoop_trace g s e (bfsFuel g) (bfsInit s) (bfsInit_tr s)
  · rw [if_neg hv]
    exact ⟨rfl, rfl, by simp, by simp⟩

/-- **C6.** For every grid and valid start/end, the `visited` trace
returned by `bfs`, `astar` and `dijkstra` contains no duplicates. -/
theorem claim_C6_visited_once (g : Grid) (s e : Pos)
    (hs : g.is_valid s.1 s.2) (he : g.is_valid e.1 e.2) :
    (bfs g s e).visited.Nodup ∧ (astar g s e).visited.Nodup ∧
    (dijkstra g s e).visited.Nodup := by
  refine ⟨?_, ?_, ?_⟩
  · show (bfsRun g s e).res.visited.Nodup
    rw [(bfsRun_trace g s e).1]
    exact (bfsRun_trace g s e).2.2.1
  · show (astarRun g s e).res.visited.Nodup
    rw [(astarRun_trace g s e).1]
    exact firstOcc_nodup _
  · show (dijkstraRun g s e).res.visited.Nodup
    rw [(dijkstraRun_trace g s e).1]
    exact firstOcc_nodup _

theorem claim_C6_visited_once_witness :
    gridW.is_valid (0, 0).1 (0, 0).2 ∧ gridW.is_valid (0, 1).1 (0, 1).2 ∧
    (bfs gridW (0, 0) (0, 1)).visited.Nodup :=
  ⟨by decide, by decide,
    (claim_C6_visited_once gridW (0, 0) (0, 1) (by decide) (by decide)).1⟩

/-- A 1×3 grid used by the trace-order counterexample. -/
def gridC : Grid := Grid.mk' 1 3

/-- **C9, counterexample.** The claim as stated — `exploring` lists states
in frontier-entry order and `visited` lists states in dequeue/settle
order — is false: in the `bfs` run on an empty 1×3 grid from `(0,0)` to
`(0,2)`, `visited` is `[(0,1), (0,2)]` while the settle order is
`[(0,0), (0,1), (0,2)]`. -/
theorem claim_C9_counterexample :
    ¬ ((bfsRun gridC (0, 0) (0, 2)).res.exploring =
        firstOcc ((0, 0) :: (bfsRun gridC (0, 0) (0, 2)).pushLog) ∧
      (bfsRun gridC (0, 0) (0, 2)).res.visited =
        (bfsRun gridC (0, 0) (0, 2)).settleLog) := by
  decide

/-- **C9, amended.** In every search invocation the roles are the other
way around: `exploring` lists states in the order they are dequeued and
settled, and `visited` lists the distinct states in the order they first
entered the frontier, with the start state (which enters first) omitted. -/
theorem claim_C9_amended_trace_order (g : Grid) (s e : Pos) :
    ((bfsRun g s e).res.exploring = (bfsRun g s e).settleLog ∧
      s :: (bfsRun g s e).res.visited =
        firstOcc (s :: (bfsRun g s e).pushLog)) ∧
    ((dfsRun g s e).res.exploring = (dfsRun g s e).settleLog ∧
      s :: (dfsRun g s e).res.visited =
        firstOcc (s :: (dfsRun g s e).pushLog)) ∧
    ((astarRun g s e).res.exploring = (astarRun g s e).settleLog ∧
      s :: (astarRun g s e).res.visited =
        firstOcc (s :: (astarRun g s e).pushLog)) ∧
    ((dijkstraRun g s e).res.exploring = (dijkstraRun g s e).settleLog ∧
      s :: (dijkstraRun g s e).res.visited =
        firstOcc (s :: (dijkstraRun g s e).pushLog)) := by
  obtain ⟨hb1, hb2, hb3, hb4⟩ := bfsRun_trace g s e
  obtain ⟨hd1, hd2, hd3, hd4⟩ := dfsRun_trace g s e
  obtain ⟨ha1, ha2, ha3⟩ := astarRun_trace g s e
  obtain ⟨hj1, hj2, hj3⟩ := dijkstraRun_trace g s e
  refine ⟨⟨hb2, ?_⟩, ⟨hd2, ?_⟩, ⟨ha3, ?_⟩, ⟨hj3, ?_⟩⟩
  · rw [hb1, firstOcc_of_nodup (List.nodup_cons.mpr ⟨hb4, hb3⟩)]
  · rw [hd1, firstOcc_of_nodup (List.nodup_cons.mpr ⟨hd4, hd3⟩)]
  · rw [ha1, firstOcc_cons_of_not_mem ha2]
  · rw [hj1, firstOcc_cons_of_not_mem hj2]

/-! ## `Grid.set_cell` marker discipline -/

theorem upd_at (f : Int → Int → CellType) (r c : Int) (v : CellType) :
    Grid.upd f r c v r c = v := by
  simp [Grid.upd]

theorem upd_ne {f : Int → Int → CellType} {r c x y : Int} {v : CellType}
    (h : ¬(x = r ∧ y = c)) : Grid.upd f r c v x y = f x y := by
  simp [Grid.upd, h]

/-- Whenever a cell is marked `START` in the grid array, `start_pos` points
at it (so there is at most one such cell). -/
def StartInv (g : Grid) : Prop :=
  ∀ r c : Int, g.cells r c = CellType.START → g.start_pos = some (r, c)

/-- Whenever a cell is marked `END` in the grid array, `end_pos` points at
it. -/
def EndInv (g : Grid) : Prop :=
  ∀ r c : Int, g.cells r c = CellType.END → g.end_pos = some (r, c)

theorem mk'_startInv (rows cols : Nat) : StartInv (Grid.mk' rows cols) := by
  intro r c hc
  cases hc

theorem mk'_endInv (rows cols : Nat) : EndInv (Grid.mk' rows cols) := by
  intro r c hc
  cases hc

/-- `set_cell … WALL` writes `WALL` at the target cell and touches no
other cell. -/
theorem set_cell_wall_cells {g : Grid} {row col : Int}
    (hin : g.inB row col) (x y : Int) :
    (g.set_cell row col CellType.WALL).cells x y =
      if x = row ∧ y = col then CellType.WALL else g.cells x y := by
  rw [Grid.set_cell, if_pos hin]
  simp only [reduceCtorEq, if_pos rfl, ite_true, ite_false]
  by_cases h1 : g.cells row col = CellType.START
  · simp [h1, Grid.upd]
    try (intro hx hy; simp [hx, hy])
  · by_cases h2 : g.cells row col = CellType.END
    · simp [h1, h2, Grid.upd]
      try (intro hx hy; simp [hx, hy])
    · simp [h1, h2, Grid.upd]
      try (intro hx hy; simp [hx, hy])

theorem set_cell_wall_start_pos {g : Grid} {row col : Int}
    (hin : g.inB row col) :
    (g.set_cell row col CellType.WALL).start_pos =
      if g.cells row col = CellType.START then none else g.start_pos := by
  rw [Grid.set_cell, if_pos hin]
  simp only [reduceCtorEq, if_pos rfl, ite_true, ite_false]
  by_cases h1 : g.cells row col = CellType.START
  · simp [h1, Grid.upd]
    try (intro hx hy; simp [hx, hy])
  · by_cases h2 : g.cells row col = CellType.END
    · simp [h1, h2, Grid.upd]
      try (intro hx hy; simp [hx, hy])
    · simp [h1, h2, Grid.upd]
      try (intro hx hy; simp [hx, hy])

theorem set_cell_wall_end_pos {g : Grid} {row col : Int}
    (hin : g.inB row col) :
    (g.set_cell row col CellType.WALL).end_pos =
      if g.cells row col = CellType.END then none else g.end_pos := by
  rw [Grid.set_cell, if_pos hin]
  simp only [reduceCtorEq, if_pos rfl, ite_true, ite_false]
  by_cases h1 : g.cells row col = CellType.START
  · have h2 : g.cells row col ≠ CellType.END := by simp [h1]
    simp [h1, h2, Grid.upd]
  · by_cases h2 : g.cells row col = CellType.END
    · simp [h1, h2, Grid.upd]
      try (intro hx hy; simp [hx, hy])
    · simp [h1, h2, Grid.upd]
      try (intro hx hy; simp [hx, hy])

/-- `set_cell … START` marks the target cell unless it currently holds
`END` (in which case the array is not changed at the target). -/
theorem set_cell_start_cells_at {g : Grid} {row col : Int}
    (hin : g.inB row col) :
    (g.set_cell row col CellType.START).cells row col =
      if g.cells row col = CellType.END then CellType.END
      else CellType.START := by
  rw [Grid.set_cell, if_pos hin]
  simp only [reduceCtorEq, ite_false, if_pos rfl, ite_true]
  rcases hsp : g.start_pos with _ | ⟨ro, co⟩
  · by_cases hend : g.cells row col = CellType.END
    · simp [hend, Grid.upd]
    · simp [hend, Grid.upd]
  · by_cases hro : g.cells ro co = CellType.START
    · by_cases hrc : row = ro ∧ col = co
      · have h5 : Grid.upd g.cells ro co CellType.EMPTY row col =
            CellType.EMPTY := by
          simp [Grid.upd, hrc.1, hrc.2]
        have hend : g.cells row col ≠ CellType.END := by
          rw [hrc.1, hrc.2, hro]
          simp
        simp [hro, h5, hend, hrc.1, hrc.2, Grid.upd]
      · have h5 : Grid.upd g.cells ro co CellType.EMPTY row col =
            g.cells row col := upd_ne hrc
        by_cases hend : g.cells row col = CellType.END
        · simp [hro, h5, hend, hrc, Grid.upd]
        · simp [hro, h5, hend, hrc, Grid.upd]
    · by_cases hend : g.cells row col = CellType.END
      · simp [hro, hend, Grid.upd]
      · simp [hro, hend, Grid.upd]

set_option maxHeartbeats 1000000 in
/-- `set_cell … START` away from the target: under the marker discipline
the only change is that the previously marked start cell (exactly the
cells holding `START`) is cleared to `EMPTY`. -/
theorem set_cell_start_cells_ne {g : Grid} {row col x y : Int}
    (h1 : StartInv g) (hin : g.inB row col) (hne : ¬(x = row ∧ y = col)) :
    (g.set_cell row col CellType.START).cells x y =
      if g.cells x y = CellType.START then CellType.EMPTY
      else g.cells x y := by
  rw [Grid.set_cell, if_pos hin]
  simp only [reduceCtorEq, ite_false, if_pos rfl, ite_true]
  rcases hsp : g.start_pos with _ | ⟨ro, co⟩
  · have hxs : g.cells x y ≠ CellType.START := by
      intro hq
      rw [h1 x y hq] at hsp
      cases hsp
    by_cases hend : g.cells row col = CellType.END
    · simp [hend, hxs, Grid.upd, hne]
    · simp [hend, hxs, Grid.upd, hne]
  · by_cases hro : g.cells ro co = CellType.START
    · have huniq : ∀ a b : Int, g.cells a b = CellType.START →
          a = ro ∧ b = co := by
        intro a b hq
        have hu := h1 a b hq
        rw [hsp] at hu
        have := Option.some_injective _ hu
        exact ⟨(congrArg Prod.fst this).symm, (congrArg Prod.snd this).symm⟩
      by_cases hxy : x = ro ∧ y = co
      · have h5 : Grid.upd g.cells ro co CellType.EMPTY x y =
            CellType.EMPTY := by
          simp [Grid.upd, hxy.1, hxy.2]
        have hxs : g.cells x y = CellType.START := by
          rw [hxy.1, hxy.2]
          exact hro
        by_cases hv : Grid.upd g.cells ro co CellType.EMPTY row col =
            CellType.END
        · simp_all [Grid.upd]
        · simp_all [Grid.upd]
      · have h5 : Grid.upd g.cells ro co CellType.EMPTY x y =
            g.cells x y := upd_ne hxy
        have hxs : g.cells x y ≠ CellType.START := by
          intro hq
          exact hxy (huniq x y hq)
        by_cases hv : Grid.upd g.cells ro co CellType.EMPTY row col =
            CellType.END
        · clear h1 huniq
          simp_all [Grid.upd]
        · clear h1 huniq
          simp_all [Grid.upd]
          rw [if_neg (fun hc => hne hc.1 hc.2), if_neg (fun hc => hxy hc.1 hc.2)]
    · have hxs : g.cells x y ≠ CellType.START := by
        intro hq
        have hu := h1 x y hq
        rw [hsp] at hu
        have := Option.some_injective _ hu
        have hx2 : x = ro := (congrArg Prod.fst this).symm
        have hy2 : y = co := (congrArg Prod.snd this).symm
        rw [hx2, hy2] at hq
        exact hro hq
      by_cases hend : g.cells row col = CellType.END
      · simp [hro, hend, hxs, Grid.upd]
      · simp [hro, hend, hxs, Grid.upd, hne]

theorem set_cell_start_start_pos {g : Grid} {row col : Int}
    (hin : g.inB row col) :
    (g.set_cell row col CellType.START).start_pos = some (row, col) := by
  rw [Grid.set_cell, if_pos hin]
  simp only [reduceCtorEq, ite_false, if_pos rfl, ite_true]
  rcases hsp : g.start_pos with _ | ⟨ro, co⟩
  · by_cases hend : g.cells row col = CellType.END
    · simp [hend, Grid.upd]
    · simp [hend, Grid.upd]
  · by_cases hro : g.cells ro co = CellType.START
    · by_cases hv : Grid.upd g.cells ro co CellType.EMPTY row col =
          CellType.END
      · simp_all [Grid.upd]
      · simp_all [Grid.upd]
    · by_cases hend : g.cells row col = CellType.END
      · simp [hro, hend, Grid.upd]
      · simp [hro, hend, Grid.upd]

theorem set_cell_start_end_pos {g : Grid} {row col : Int}
    (hin : g.inB row col) :
    (g.set_cell row col CellType.START).end_pos = g.end_pos := by
  rw [Grid.set_cell, if_pos hin]
  simp only [reduceCtorEq, ite_false, if_pos rfl, ite_true]
  rcases hsp : g.start_pos with _ | ⟨ro, co⟩
  · by_cases hend : g.cells row col = CellType.END
    · simp [hend, Grid.upd]
    · simp [hend, Grid.upd]
  · by_cases hro : g.cells ro co = CellType.START
    · by_cases hv : Grid.upd g.cells ro co CellType.EMPTY row col =
          CellType.END
      · simp_all [Grid.upd]
      · simp_all [Grid.upd]
    · by_cases hend : g.cells row col = CellType.END
      · simp [hro, hend, Grid.upd]
      · simp [hro, hend, Grid.upd]

/-- `set_cell … END` marks the target cell unless it currently holds
`START` (in which case the array is not changed at the target). -/
theorem set_cell_end_cells_at {g : Grid} {row col : Int}
    (hin : g.inB row col) :
    (g.set_cell row col CellType.END).cells row col =
      if g.cells row col = CellType.START then CellType.START
      else CellType.END := by
  rw [Grid.set_cell, if_pos hin]
  simp only [reduceCtorEq, ite_false, if_pos rfl, ite_true]
  rcases hep : g.end_pos with _ | ⟨ro, co⟩
  · by_cases hst : g.cells row col = CellType.START
    · simp [hst, Grid.upd]
    · by_cases hen : g.cells row col = CellType.END
      · simp [hst, hen, Grid.upd]
      · simp [hst, hen, Grid.upd]
  · by_cases hro : g.cells ro co = CellType.END
    · by_cases hrc : row = ro ∧ col = co
      · have h5 : Grid.upd g.cells ro co CellType.EMPTY row col =
            CellType.EMPTY := by
          simp [Grid.upd, hrc.1, hrc.2]
        have hst : g.cells row col ≠ CellType.START := by
          rw [hrc.1, hrc.2, hro]
          simp
        have hen : g.cells row col = CellType.END := by
          rw [hrc.1, hrc.2]
          exact hro
        simp_all [Grid.upd]
      · have h5 : Grid.upd g.cells ro co CellType.EMPTY row col =
            g.cells row col := upd_ne hrc
        by_cases hst : g.cells row col = CellType.START
        · simp_all [Grid.upd]
        · by_cases hen : g.cells row col = CellType.END
          · simp_all [Grid.upd]
          · simp_all [Grid.upd]
            have h7 : (if row = ro ∧ col = co then CellType.EMPTY
                else g.cells row col) = g.cells row col :=
              if_neg (fun hc => hrc hc.1 hc.2)
            rw [h7]
            simp [hst, hen, Grid.upd]
    · by_cases hst : g.cells row col = CellType.START
      · simp [hro, hst, Grid.upd]
      · by_cases hen : g.cells row col = CellType.END
        · simp [hro, hst, hen, Grid.upd]
        · simp [hro, hst, hen, Grid.upd]

set_option maxHeartbeats 1000000 in
/-- `set_cell … END` away from the target: under the marker discipline the
only change is that the previously marked end cell is cleared to `EMPTY`. -/
theorem set_cell_end_cells_ne {g : Grid} {row col x y : Int}
    (h2 : EndInv g) (hin : g.inB row col) (hne : ¬(x = row ∧ y = col)) :
    (g.set_cell row col CellType.END).cells x y =
      if g.cells x y = CellType.END then CellType.EMPTY
      else g.cells x y := by
  rw [Grid.set_cell, if_pos hin]
  simp only [reduceCtorEq, ite_false, if_pos rfl, ite_true]
  rcases hep : g.end_pos with _ | ⟨ro, co⟩
  · have hxs : g.cells x y ≠ CellType.END := by
      intro hq
      rw [h2 x y hq] at hep
      cases hep
    by_cases hst : g.cells row col = CellType.START
    · simp [hst, hxs, Grid.upd, hne]
    · by_cases hen2 : g.cells row col = CellType.END
      · rw [h2 row col hen2] at hep
        cases hep
      · simp [hst, hen2, hxs, Grid.upd, hne]
  · by_cases hro : g.cells ro co = CellType.END
    · have huniq : ∀ a b : Int, g.cells a b = CellType.END →
          a = ro ∧ b = co := by
        intro a b hq
        have hu := h2 a b hq
        rw [hep] at hu
        have := Option.some_injective _ hu
        exact ⟨(congrArg Prod.fst this).symm, (congrArg Prod.snd this).symm⟩
      by_cases hxy : x = ro ∧ y = co
      · have hxs : g.cells x y = CellType.END := by
          rw [hxy.1, hxy.2]
          exact hro
        rw [if_pos hxs]
        simp only [hro, ite_true, if_pos rfl]
        split_ifs with hg
        · show Grid.upd (Grid.upd g.cells ro co CellType.EMPTY) row col
              CellType.END x y = CellType.EMPTY
          rw [upd_ne hne, hxy.1, hxy.2, upd_at]
        · show Grid.upd g.cells ro co CellType.EMPTY x y = CellType.EMPTY
          rw [hxy.1, hxy.2, upd_at]
      · have h5 : Grid.upd g.cells ro co CellType.EMPTY x y =
            g.cells x y := upd_ne hxy
        have hxs : g.cells x y ≠ CellType.END := fun hq => hxy (huniq x y hq)
        rw [if_neg hxs]
        simp only [hro, ite_true, if_pos rfl]
        split_ifs with hg
        · show Grid.upd (Grid.upd g.cells ro co CellType.EMPTY) row col
              CellType.END x y = g.cells x y
          rw [upd_ne hne, h5]
        · show Grid.upd g.cells ro co CellType.EMPTY x y = g.cells x y
          rw [h5]
    · have hxs : g.cells x y ≠ CellType.END := by
        intro hq
        have hu := h2 x y hq
        rw [hep] at hu
        have := Option.some_injective _ hu
        have hx2 : x = ro := (congrArg Prod.fst this).symm
        have hy2 : y = co := (congrArg Prod.snd this).symm
        rw [hx2, hy2] at hq
        exact hro hq
      by_cases hst : g.cells row col = CellType.START
      · simp [hro, hst, hxs, Grid.upd, hne]
      · by_cases hen2 : g.cells row col = CellType.END
        · have hu := h2 row col hen2
          rw [hep] at hu
          have := Option.some_injective _ hu
          have hr2 : row = ro := (congrArg Prod.fst this).symm
          have hc2 : col = co := (congrArg Prod.snd this).symm
          rw [hr2, hc2] at hen2
          exact absurd hen2 hro
        · simp [hro, hst, hen2, hxs, Grid.upd, hne]

theorem set_cell_end_end_pos {g : Grid} {row col : Int}
    (hin : g.inB row col) :
    (g.set_cell row col CellType.END).end_pos = some (row, col) := by
  rw [Grid.set_cell, if_pos hin]
  simp only [reduceCtorEq, ite_false, if_pos rfl, ite_true]
  rcases hep : g.end_pos with _ | ⟨ro, co⟩
  · split_ifs <;> rfl
  · by_cases hro : g.cells ro co = CellType.END
    · simp only [hro, ite_true, if_pos rfl]
      split_ifs <;> rfl
    · simp only [hro, ite_false, if_neg hro]
      split_ifs <;> rfl

theorem set_cell_end_start_pos {g : Grid} {row col : Int}
    (hin : g.inB row col) :
    (g.set_cell row col CellType.END).start_pos = g.start_pos := by
  rw [Grid.set_cell, if_pos hin]
  simp only [reduceCtorEq, ite_false, if_pos rfl, ite_true]
  rcases hep : g.end_pos with _ | ⟨ro, co⟩
  · split_ifs <;> rfl
  · by_cases hro : g.cells ro co = CellType.END
    · simp only [hro, ite_true, if_pos rfl]
      split_ifs <;> rfl
    · simp only [hro, ite_false, if_neg hro]
      split_ifs <;> rfl

/-- `set_cell` with a non-marker type (`EMPTY`, `VISITED`, `PATH`,
`EXPLORING`): it writes the type at the target unless that cell currently
holds `START` or `END`, and touches nothing else. -/
theorem set_cell_other_cells {g : Grid} {row col x y : Int} {ct : CellType}
    (hin : g.inB row col) (hw : ct ≠ CellType.WALL)
    (hs : ct ≠ CellType.START) (he : ct ≠ CellType.END) :
    (g.set_cell row col ct).cells x y =
      if x = row ∧ y = col ∧ g.cells row col ≠ CellType.START ∧
          g.cells row col ≠ CellType.END then ct
      else g.cells x y := by
  rw [Grid.set_cell, if_pos hin]
  rw [if_neg hw, if_neg hs, if_neg he]
  by_cases hst : g.cells row col = CellType.START
  · simp [hst, Grid.upd]
  · by_cases hen : g.cells row col = CellType.END
    · simp [hst, hen, Grid.upd]
    · simp only [hst, hen, ne_eq, not_false_iff, and_true, if_pos]
      by_cases hxy : x = row ∧ y = col
      · simp [hxy.1, hxy.2, hst, hen, Grid.upd]
      · simp [hxy, hst, hen, Grid.upd]

theorem set_cell_other_start_pos {g : Grid} {row col : Int} {ct : CellType}
    (hin : g.inB row col) (hw : ct ≠ CellType.WALL)
    (hs : ct ≠ CellType.START) (he : ct ≠ CellType.END) :
    (g.set_cell row col ct).start_pos = g.start_pos := by
  simp only [Grid.set_cell, if_pos hin, if_neg hw, if_neg hs, if_neg he]
  split_ifs <;> rfl

theorem set_cell_other_end_pos {g : Grid} {row col : Int} {ct : CellType}
    (hin : g.inB row col) (hw : ct ≠ CellType.WALL)
    (hs : ct ≠ CellType.START) (he : ct ≠ CellType.END) :
    (g.set_cell row col ct).end_pos = g.end_pos := by
  simp only [Grid.set_cell, if_pos hin, if_neg hw, if_neg hs, if_neg he]
  split_ifs <;> rfl

/-- Out-of-bounds `set_cell` calls leave the grid untouched. -/
theorem set_cell_oob {g : Grid} {row col : Int} {ct : CellType}
    (h : ¬ g.inB row col) : g.set_cell row col ct = g := by
  rw [Grid.set_cell, if_neg h]

/-- Setting a non-marker type preserves the start-marker invariant. -/
theorem set_cell_other_startInv {g : Grid} {row col : Int} {ct : CellType}
    (hin : g.inB row col) (hw : ct ≠ CellType.WALL)
    (hs : ct ≠ CellType.START) (he : ct ≠ CellType.END)
    (h1 : StartInv g) : StartInv (g.set_cell row col ct) := by
  intro a b hab
  rw [set_cell_other_start_pos hin hw hs he]
  rw [set_cell_other_cells hin hw hs he] at hab
  by_cases hc : a = row ∧ b = col ∧ g.cells row col ≠ CellType.START ∧
      g.cells row col ≠ CellType.END
  · rw [if_pos hc] at hab
    exact absurd hab hs
  · rw [if_neg hc] at hab
    exact h1 a b hab

/-- Setting a non-marker type preserves the end-marker invariant. -/
theorem set_cell_other_endInv {g : Grid} {row col : Int} {ct : CellType}
    (hin : g.inB row col) (hw : ct ≠ CellType.WALL)
    (hs : ct ≠ CellType.START) (he : ct ≠ CellType.END)
    (h2 : EndInv g) : EndInv (g.set_cell row col ct) := by
  intro a b hab
  rw [set_cell_other_end_pos hin hw hs he]
  rw [set_cell_other_cells hin hw hs he] at hab
  by_cases hc : a = row ∧ b = col ∧ g.cells row col ≠ CellType.START ∧
      g.cells row col ≠ CellType.END
  · rw [if_pos hc] at hab
    exact absurd hab he
  · rw [if_neg hc] at hab
    exact h2 a b hab

/-- Every `set_cell` call preserves the start-marker invariant. -/
theorem set_cell_startInv {g : Grid} (row col : Int) (ct : CellType)
    (h1 : StartInv g) (h2 : EndInv g) : StartInv (g.set_cell row col ct) := by
  by_cases hin : g.inB row col
  · cases ct with
    | WALL =>
        intro a b hab
        rw [set_cell_wall_cells hin a b] at hab
        rw [set_cell_wall_start_pos hin]
        by_cases hab2 : a = row ∧ b = col
        · rw [if_pos hab2] at hab
          cases hab
        · rw [if_neg hab2] at hab
          have hsp := h1 a b hab
          by_cases hrc : g.cells row col = CellType.START
          · have h4 := h1 row col hrc
            rw [h4] at hsp
            have h3 := Option.some_injective _ hsp
            exact absurd ⟨(congrArg Prod.fst h3).symm,
              (congrArg Prod.snd h3).symm⟩ hab2
          · rw [if_neg hrc]
            exact hsp
    | START =>
        intro a b hab
        rw [set_cell_start_start_pos hin]
        by_cases hab2 : a = row ∧ b = col
        · rw [hab2.1, hab2.2]
        · rw [set_cell_start_cells_ne h1 hin hab2] at hab
          by_cases hc : g.cells a b = CellType.START
          · rw [if_pos hc] at hab
            cases hab
          · rw [if_neg hc] at hab
            exact absurd hab hc
    | END =>
        intro a b hab
        rw [set_cell_end_start_pos hin]
        by_cases hab2 : a = row ∧ b = col
        · rw [hab2.1, hab2.2, set_cell_end_cells_at hin] at hab
          by_cases hc : g.cells row col = CellType.START
          · rw [hab2.1, hab2.2]
            exact h1 row col hc
          · rw [if_neg hc] at hab
            cases hab
        · rw [set_cell_end_cells_ne h2 hin hab2] at hab
          by_cases hc : g.cells a b = CellType.END
          · rw [if_pos hc] at hab
            cases hab
          · rw [if_neg hc] at hab
            exact h1 a b hab
    | EMPTY =>
        exact set_cell_other_startInv hin (by decide) (by decide) (by decide) h1
    | VISITED =>
        exact set_cell_other_startInv hin (by decide) (by decide) (by decide) h1
    | PATH =>
        exact set_cell_other_startInv hin (by decide) (by decide) (by decide) h1
    | EXPLORING =>
        exact set_cell_other_startInv hin (by decide) (by decide) (by decide) h1
  · rw [set_cell_oob hin]
    exact h1

/-- Every `set_cell` call preserves the end-marker invariant. -/
theorem set_cell_endInv {g : Grid} (row col : Int) (ct : CellType)
    (h1 : StartInv g) (h2 : EndInv g) : EndInv (g.set_cell row col ct) := by
  by_cases hin : g.inB row col
  · cases ct with
    | WALL =>
        intro a b hab
        rw [set_cell_wall_cells hin a b] at hab
        rw [set_cell_wall_end_pos hin]
        by_cases hab2 : a = row ∧ b = col
        · rw [if_pos hab2] at hab
          cases hab
        · rw [if_neg hab2] at hab
          have hsp := h2 a b hab
          by_cases hrc : g.cells row col = CellType.END
          · have h4 := h2 row col hrc
            rw [h4] at hsp
            have h3 := Option.some_injective _ hsp
            exact absurd ⟨(congrArg Prod.fst h3).symm,
              (congrArg Prod.snd h3).symm⟩ hab2
          · rw [if_neg hrc]
            exact hsp
    | END =>
        intro a b hab
        rw [set_cell_end_end_pos hin]
        by_cases hab2 : a = row ∧ b = col
        · rw [hab2.1, hab2.2]
        · rw [set_cell_end_cells_ne h2 hin hab2] at hab
          by_cases hc : g.cells a b = CellType.END
          · rw [if_pos hc] at hab
            cases hab
          · rw [if_neg hc] at hab
            exact absurd hab hc
    | START =>
        intro a b hab
        rw [set_cell_start_end_pos hin]
        by_cases hab2 : a = row ∧ b = col
        · rw [hab2.1, hab2.2, set_cell_start_cells_at hin] at hab
          by_cases hc : g.cells row col = CellType.END
          · rw [hab2.1, hab2.2]
            exact h2 row col hc
          · rw [if_neg hc] at hab
            cases hab
        · rw [set_cell_start_cells_ne h1 hin hab2] at hab
          by_cases hc : g.cells a b = CellType.START
          · rw [if_pos hc] at hab
            cases hab
          · rw [if_neg hc] at hab
            exact h2 a b hab
    | EMPTY =>
        exact set_cell_other_endInv hin (by decide) (by decide) (by decide) h2
    | VISITED =>
        exact set_cell_other_endInv hin (by decide) (by decide) (by decide) h2
    | PATH =>
        exact set_cell_other_endInv hin (by decide) (by decide) (by decide) h2
    | EXPLORING =>
        exact set_cell_other_endInv hin (by decide) (by decide) (by decide) h2
  · rw [set_cell_oob hin]
    exact h2

/-- A sequence of `set_cell(row, col, cell_type)` calls, performed in
order. -/
def applyCalls (g : Grid) (cs : List (Int × Int × CellType)) : Grid :=
  cs.foldl (fun h c => h.set_cell c.1 c.2.1 c.2.2) g

theorem applyCalls_inv (cs : List (Int × Int × CellType)) (g : Grid)
    (h1 : StartInv g) (h2 : EndInv g) :
    StartInv (applyCalls g cs) ∧ EndInv (applyCalls g cs) := by
  induction cs generalizing g with
  | nil => exact ⟨h1, h2⟩
  | cons c cs ih =>
      exact ih _ (set_cell_startInv _ _ _ h1 h2) (set_cell_endInv _ _ _ h1 h2)

/-- At most one cell of the grid array holds the given type. -/
def AtMostOne (g : Grid) (t : CellType) : Prop :=
  ∀ a b a' b' : Int, g.cells a b = t → g.cells a' b' = t → a = a' ∧ b = b'

theorem startInv_atMostOne {g : Grid} (h : StartInv g) :
    AtMostOne g CellType.START := by
  intro a b a' b' hq hq'
  have e1 := h a b hq
  have e2 := h a' b' hq'
  rw [e1] at e2
  have h3 := Option.some_injective _ e2
  exact ⟨congrArg Prod.fst h3, congrArg Prod.snd h3⟩

theorem endInv_atMostOne {g : Grid} (h : EndInv g) :
    AtMostOne g CellType.END := by
  intro a b a' b' hq hq'
  have e1 := h a b hq
  have e2 := h a' b' hq'
  rw [e1] at e2
  have h3 := Option.some_injective _ e2
  exact ⟨congrArg Prod.fst h3, congrArg Prod.snd h3⟩

/-- The corrected marker discipline of `set_cell`, for a grid satisfying
the marker invariants (as every grid reachable from `Grid.__init__` by
`set_cell` calls does): `START`/`END` move the corresponding position
field and mark the cell *unless it currently holds the other endpoint
marker* (then the array is left unchanged at the target); the old marker
cell is cleared; `WALL` overwrites the target and clears its marker; and
any call sequence keeps at most one `START` and at most one `END` cell. -/
def C8Concl (g : Grid) (row col : Int) : Prop :=
  ((g.set_cell row col CellType.START).start_pos = some (row, col) ∧
    (g.set_cell row col CellType.START).cells row col =
      (if g.cells row col = CellType.END then CellType.END
       else CellType.START) ∧
    ∀ x y : Int, ¬(x = row ∧ y = col) →
      (g.set_cell row col CellType.START).cells x y =
        (if g.cells x y = CellType.START then CellType.EMPTY
         else g.cells x y)) ∧
  ((g.set_cell row col CellType.END).end_pos = some (row, col) ∧
    (g.set_cell row col CellType.END).cells row col =
      (if g.cells row col = CellType.START then CellType.START
       else CellType.END) ∧
    ∀ x y : Int, ¬(x = row ∧ y = col) →
      (g.set_cell row col CellType.END).cells x y =
        (if g.cells x y = CellType.END then CellType.EMPTY
         else g.cells x y)) ∧
  ((g.set_cell row col CellType.WALL).cells row col = CellType.WALL ∧
    (g.set_cell row col CellType.WALL).start_pos =
      (if g.cells row col = CellType.START then none else g.start_pos) ∧
    (g.set_cell row col CellType.WALL).end_pos =
      (if g.cells row col = CellType.END then none else g.end_pos)) ∧
  (∀ cs : List (Int × Int × CellType),
    AtMostOne (applyCalls g cs) CellType.START ∧
    AtMostOne (applyCalls g cs) CellType.END)

/-- C8 (counterexample): on a fresh 1×1 grid, setting `END` at the
in-bounds cell (0,0) and then `START` at the same cell leaves the cell
marked `END` — `set_cell … START` does **not** always "mark the given
cell" as the claim states. -/
theorem claim_C8_counterexample :
    (Grid.mk' 1 1).inB 0 0 ∧
    (((Grid.mk' 1 1).set_cell 0 0 CellType.END).set_cell 0 0
        CellType.START).cells 0 0 ≠ CellType.START := by
  decide

/-- C8 (amended): for every grid satisfying the marker invariants and
every in-bounds position, `set_cell` with `START` (resp. `END`) moves
`start_pos` (resp. `end_pos`) there, clears the previously marked cell,
and marks the target cell unless it currently holds the other endpoint
marker; `WALL` overwrites the target cell and clears its marker; and after
any sequence of `set_cell` calls the grid array contains at most one
`START` and at most one `END` cell. -/
theorem claim_C8_marker_discipline (g : Grid) (row col : Int)
    (h1 : StartInv g) (h2 : EndInv g) (hin : g.inB row col) :
    C8Concl g row col := by
  refine ⟨⟨set_cell_start_start_pos hin, set_cell_start_cells_at hin,
      fun x y hxy => set_cell_start_cells_ne h1 hin hxy⟩,
    ⟨set_cell_end_end_pos hin, set_cell_end_cells_at hin,
      fun x y hxy => set_cell_end_cells_ne h2 hin hxy⟩,
    ⟨by rw [set_cell_wall_cells hin row col]; simp,
      set_cell_wall_start_pos hin, set_cell_wall_end_pos hin⟩,
    fun cs => ?_⟩
  obtain ⟨hs, he⟩ := applyCalls_inv cs g h1 h2
  exact ⟨startInv_atMostOne hs, endInv_atMostOne he⟩

/-- C8 amended-theorem witness at a concrete grid and position. -/
theorem claim_C8_marker_discipline_witness :
    StartInv (Grid.mk' 1 1) ∧ EndInv (Grid.mk' 1 1) ∧
    (Grid.mk' 1 1).inB 0 0 ∧ C8Concl (Grid.mk' 1 1) 0 0 :=
  ⟨mk'_startInv 1 1, mk'_endInv 1 1, by decide,
    claim_C8_marker_discipline (Grid.mk' 1 1) 0 0 (mk'_startInv 1 1)
      (mk'_endInv 1 1) (by decide)⟩


/-! ## `puzzle_logic.py` and `bfs_solver.py` claims (C3, C4, C7) -/

/-- Counting a value property over `range`-indexed reads equals counting
over the list itself. -/
theorem countP_range_getD (xs : List Nat) (q : Nat → Bool) :
    (List.range xs.length).countP (fun k => q (xs.getD k 0)) =
      xs.countP q := by
  induction xs with
  | nil => simp
  | cons x xs ih =>
      rw [List.length_cons, List.range_succ_eq_map, List.countP_cons,
        List.countP_map]
      simp only [Function.comp_def, List.getD_cons_succ, List.getD_cons_zero]
      rw [ih, List.countP_cons]

/-- The inversion count in the spec's wording: the number of index pairs
`(i, j)` with `i < j` and `tile[i] > tile[j]`, written as a sum over `i`
of the number of admissible `j`. -/
def specInversions (l : List Nat) : Nat :=
  ((List.range l.length).map (fun i =>
    (List.range l.length).countP
      (fun j => decide (i < j ∧ l.getD j 0 < l.getD i 0)))).sum

theorem countInversions_eq_spec (l : List Nat) :
    Puzzle.countInversions l = specInversions l := by
  induction l with
  | nil => rfl
  | cons x xs ih =>
      simp only [Puzzle.countInversions]
      rw [ih]
      unfold specInversions
      simp only [List.length_cons, List.range_succ_eq_map, List.map_cons,
        List.sum_cons, List.map_map, Function.comp_def]
      have hhead : (0 :: (List.range xs.length).map Nat.succ).countP
          (fun j => decide (0 < j ∧ (x :: xs).getD j 0 <
            (x :: xs).getD 0 0)) =
          xs.countP (fun y => decide (y < x)) := by
        rw [List.countP_cons, List.countP_map]
        simp only [Function.comp_def, List.getD_cons_succ,
          List.getD_cons_zero, Nat.lt_irrefl, false_and, decide_False,
          Nat.succ_pos, true_and, if_false, Nat.add_zero]
        exact countP_range_getD xs (fun y => decide (y < x))
      have htail : ∀ k : Nat,
          (0 :: (List.range xs.length).map Nat.succ).countP
            (fun j => decide (Nat.succ k < j ∧ (x :: xs).getD j 0 <
              (x :: xs).getD (Nat.succ k) 0)) =
          (List.range xs.length).countP
            (fun j => decide (k < j ∧ xs.getD j 0 < xs.getD k 0)) := by
        intro k
        rw [List.countP_cons, List.countP_map]
        simp only [Function.comp_def, List.getD_cons_succ, Nat.not_lt_zero,
          false_and, decide_False, Nat.succ_lt_succ_iff, if_false,
          Bool.false_eq_true, Nat.add_zero]
      rw [hhead]
      have hmap : (List.range xs.length).map
            (fun k => (0 :: (List.range xs.length).map Nat.succ).countP
              (fun j => decide (Nat.succ k < j ∧ (x :: xs).getD j 0 <
                (x :: xs).getD (Nat.succ k) 0))) =
          (List.range xs.length).map
            (fun k => (List.range xs.length).countP
              (fun j => decide (k < j ∧ xs.getD j 0 < xs.getD k 0))) :=
        List.map_congr_left (fun k _ => htail k)
      rw [hmap]

/-- Every queue entry of `BFSSolver.solve` pairs a board with the move
list that produces it from the initial board; the successor fold
preserves this. -/
theorem solve_relax_inv (cur : Puzzle) (path : List String) (p : Puzzle)
    (hcur : Puzzle.applyMoves p path = cur) (moves : List String) :
    ∀ qv : List (Puzzle × List String) × List Puzzle,
      (∀ e ∈ qv.1, Puzzle.applyMoves p e.2 = e.1) →
      ∀ e ∈ (moves.foldl (fun qv m =>
          let np := (Puzzle.makeMove cur m).2
          if np ∈ qv.2 then qv
          else (qv.1 ++ [(np, path ++ [m])], qv.2 ++ [np])) qv).1,
        Puzzle.applyMoves p e.2 = e.1 := by
  induction moves with
  | nil =>
      intro qv hqv e he
      exact hqv e he
  | cons m ms ih =>
      intro qv hqv
      rw [List.foldl_cons]
      apply ih
      by_cases hmem : (Puzzle.makeMove cur m).2 ∈ qv.2
      · simpa [hmem] using hqv
      · simp only [hmem, ite_false]
        intro e he
        rcases List.mem_append.mp he with h1 | h2
        · exact hqv e h1
        · have he2 : e = ((Puzzle.makeMove cur m).2, path ++ [m]) := by
            simpa using h2
          rw [he2]
          show Puzzle.applyMoves p (path ++ [m]) = (Puzzle.makeMove cur m).2
          rw [Puzzle.applyMoves, List.foldl_append]
          show (Puzzle.makeMove (Puzzle.applyMoves p path) m).2 =
            (Puzzle.makeMove cur m).2
          rw [hcur]

/-- If every queue entry's path reproduces its board, any path returned
by the solver loop reaches the goal. -/
theorem solveLoop_sound (p : Puzzle) :
    ∀ (fuel : Nat) (q : List (Puzzle × List String)) (v : List Puzzle),
      (∀ e ∈ q, Puzzle.applyMoves p e.2 = e.1) →
      ∀ ms, BFSSolver.solveLoop fuel q v = some ms →
        Puzzle.isGoal (Puzzle.applyMoves p ms) = true := by
  intro fuel
  induction fuel with
  | zero =>
      intro q v _ ms h
      simp [BFSSolver.solveLoop] at h
  | succ n ih =>
      intro q v hq ms h
      match q with
      | [] => simp [BFSSolver.solveLoop] at h
      | (cur, path) :: rest =>
          simp only [BFSSolver.solveLoop] at h
          by_cases hg : Puzzle.isGoal cur
          · rw [if_pos hg] at h
            have hms : ms = path := (Option.some_injective _ h).symm
            rw [hms, hq (cur, path) (List.mem_cons_self _ _)]
            exact hg
          · rw [if_neg hg] at h
            refine ih _ _ ?_ ms h
            exact solve_relax_inv cur path p
              (hq (cur, path) (List.mem_cons_self _ _))
              (Puzzle.getValidMoves cur) (rest, v)
              (fun e he => hq e (List.mem_cons_of_mem _ he))

/-- C4: a solved board yields the empty move list, and any returned move
list replays to the goal state. -/
theorem claim_C4_solve_correct (p : Puzzle) :
    (Puzzle.isGoal p = true → BFSSolver.solve p = some []) ∧
    (∀ ms, BFSSolver.solve p = some ms →
      Puzzle.isGoal (Puzzle.applyMoves p ms) = true) := by
  constructor
  · intro hg
    rw [BFSSolver.solve, if_pos hg]
  · intro ms h
    rw [BFSSolver.solve] at h
    by_cases hg : Puzzle.isGoal p
    · rw [if_pos hg] at h
      have hms : ms = [] := (Option.some_injective _ h).symm
      rw [hms]
      exact hg
    · rw [if_neg hg] at h
      by_cases hs : Puzzle.isSolvable p
      · rw [if_neg (by simp [hs])] at h
        refine solveLoop_sound p _ _ _ ?_ ms h
        intro e he
        have he2 : e = (p, []) := by simpa using he
        rw [he2]
        rfl
      · rw [if_pos hs] at h
        cases h

/-- C4 witness: the already-solved 3×3 board. -/
theorem claim_C4_solve_correct_witness :
    Puzzle.isGoal (Puzzle.mk [[1, 2, 3], [4, 5, 6], [7, 8, 0]]) = true ∧
    BFSSolver.solve (Puzzle.mk [[1, 2, 3], [4, 5, 6], [7, 8, 0]]) =
      some [] ∧
    Puzzle.isGoal (Puzzle.applyMoves
      (Puzzle.mk [[1, 2, 3], [4, 5, 6], [7, 8, 0]]) []) = true := by
  refine ⟨by decide, ?_, ?_⟩
  · exact (claim_C4_solve_correct
      (Puzzle.mk [[1, 2, 3], [4, 5, 6], [7, 8, 0]])).1 (by decide)
  · exact (claim_C4_solve_correct
      (Puzzle.mk [[1, 2, 3], [4, 5, 6], [7, 8, 0]])).2 []
      ((claim_C4_solve_correct
        (Puzzle.mk [[1, 2, 3], [4, 5, 6], [7, 8, 0]])).1 (by decide))

/-- `find?` returns the unique element satisfying the predicate. -/
theorem find?_unique {α : Type} {l : List α} {p : α → Bool} {a : α}
    (hmem : a ∈ l) (hpa : p a = true)
    (huniq : ∀ x ∈ l, p x = true → x = a) : l.find? p = some a := by
  induction l with
  | nil => cases hmem
  | cons b l ih =>
      by_cases hb : p b = true
      · rw [List.find?_cons_of_pos _ hb,
          huniq b (List.mem_cons_self _ _) hb]
      · rw [List.find?_cons_of_neg _ (by simpa using hb)]
        rcases List.mem_cons.mp hmem with h1 | h1
        · exact absurd (h1 ▸ hpa) hb
        · exact ih h1 (fun x hx hpx =>
            huniq x (List.mem_cons_of_mem _ hx) hpx)

/-- A square board: every row has `size` entries. -/
def SquareP (p : Puzzle) : Prop := ∀ row ∈ p.state, row.length = p.size

instance (p : Puzzle) : Decidable (SquareP p) := by
  unfold SquareP; infer_instance

/-- `findSome?` over `range n` returns the image of the first index with
a `some` value. -/
theorem findSome?_range_unique {β : Type} (n r : Nat) (F : Nat → Option β)
    (b : β) (hr : r < n) (hnone : ∀ i < r, F i = none)
    (hFr : F r = some b) : (List.range n).findSome? F = some b := by
  have h1 : r + (n - r) = n := by omega
  have hdecomp : List.range n =
      List.range r ++ (List.range (n - r)).map (r + ·) := by
    conv_lhs => rw [← h1]
    rw [List.range_add]
  rw [hdecomp, List.findSome?_append]
  have h2 : (List.range r).findSome? F = none :=
    List.findSome?_eq_none_iff.mpr (fun i hi => hnone i (List.mem_range.mp hi))
  have h4 : n - r = (n - r - 1) + 1 := by omega
  rw [h2, h4, List.range_succ_eq_map, List.map_cons, List.findSome?_cons]
  simp only [Nat.add_zero, hFr]
  rfl

/-- Under a unique blank at `(r, c)`, `find_empty` locates it. -/
theorem findEmpty_eq (p : Puzzle) (r c : Nat)
    (hr : r < p.size) (hc : c < p.size)
    (hblank : Puzzle.cellAt p r c = 0)
    (huniq : ∀ i, i < p.size → ∀ j, j < p.size → Puzzle.cellAt p i j = 0 →
      i = r ∧ j = c) :
    Puzzle.findEmpty p = ((r : Int), (c : Int)) := by
  have hFr : ((List.range p.size).find?
        (fun j => Puzzle.cellAt p r j == 0)).map
        (fun j => ((r : Int), (j : Int))) = some ((r : Int), (c : Int)) := by
    rw [find?_unique (List.mem_range.mpr hc) (by simpa using hblank)
      (fun x hx hpx =>
        (huniq r hr x (List.mem_range.mp hx) (by simpa using hpx)).2)]
    rfl
  have hnone : ∀ i < r, ((List.range p.size).find?
        (fun j => Puzzle.cellAt p i j == 0)).map
        (fun j => ((i : Int), (j : Int))) = none := by
    intro i hi
    rw [List.find?_eq_none.mpr ?_]
    · rfl
    · intro j hj hbeq
      have h3 := huniq i (hi.trans hr) j (List.mem_range.mp hj)
        (by simpa using hbeq)
      omega
  have hfs : (List.range p.size).findSome? (fun i =>
      ((List.range p.size).find? (fun j => Puzzle.cellAt p i j == 0)).map
        (fun j => ((i : Int), (j : Int)))) = some ((r : Int), (c : Int)) := by
    apply findSome?_range_unique p.size r _ _ hr
    · intro i hi
      exact hnone i hi
    · exact hFr
  rw [Puzzle.findEmpty, hfs]

/-- C3: the solvability precheck matches the spec formula. -/
theorem claim_C3_solvability_formula (p : Puzzle) (r c : Nat)
    (hsq : SquareP p) (hr : r < p.size) (hc : c < p.size)
    (hblank : Puzzle.cellAt p r c = 0)
    (huniq : ∀ i, i < p.size → ∀ j, j < p.size → Puzzle.cellAt p i j = 0 →
      i = r ∧ j = c) :
    Puzzle.isSolvable p = true ↔
      ((p.size % 2 = 1 ∧ specInversions (Puzzle.flatTiles p) % 2 = 0) ∨
       (p.size % 2 = 0 ∧
         (specInversions (Puzzle.flatTiles p) + (p.size - 1 - r)) % 2 =
           0)) := by
  simp only [Puzzle.isSolvable, countInversions_eq_spec,
    findEmpty_eq p r c hr hc hblank huniq]
  by_cases hodd : p.size % 2 = 1
  · rw [if_pos hodd]
    simp only [beq_iff_eq]
    constructor
    · intro h
      exact Or.inl ⟨hodd, h⟩
    · rintro (⟨_, h⟩ | ⟨heven, _⟩)
      · exact h
      · omega
  · rw [if_neg hodd]
    simp only [beq_iff_eq]
    constructor
    · intro h
      refine Or.inr ⟨by omega, ?_⟩
      omega
    · rintro (⟨hodd2, _⟩ | ⟨_, h⟩)
      · omega
      · omega

/-- C3 witness: the solved 3×3 board, blank at `(2, 2)`. -/
theorem claim_C3_solvability_formula_witness :
    SquareP (Puzzle.mk [[1, 2, 3], [4, 5, 6], [7, 8, 0]]) ∧
    2 < (Puzzle.mk [[1, 2, 3], [4, 5, 6], [7, 8, 0]]).size ∧
    Puzzle.cellAt (Puzzle.mk [[1, 2, 3], [4, 5, 6], [7, 8, 0]]) 2 2 = 0 ∧
    (∀ i, i < (Puzzle.mk [[1, 2, 3], [4, 5, 6], [7, 8, 0]]).size →
      ∀ j, j < (Puzzle.mk [[1, 2, 3], [4, 5, 6], [7, 8, 0]]).size →
        Puzzle.cellAt (Puzzle.mk [[1, 2, 3], [4, 5, 6], [7, 8, 0]]) i j =
          0 → i = 2 ∧ j = 2) ∧
    (Puzzle.isSolvable (Puzzle.mk [[1, 2, 3], [4, 5, 6], [7, 8, 0]]) =
        true ↔
      (((Puzzle.mk [[1, 2, 3], [4, 5, 6], [7, 8, 0]]).size % 2 = 1 ∧
        specInversions (Puzzle.flatTiles
          (Puzzle.mk [[1, 2, 3], [4, 5, 6], [7, 8, 0]])) % 2 = 0) ∨
       ((Puzzle.mk [[1, 2, 3], [4, 5, 6], [7, 8, 0]]).size % 2 = 0 ∧
        (specInversions (Puzzle.flatTiles
          (Puzzle.mk [[1, 2, 3], [4, 5, 6], [7, 8, 0]])) +
          ((Puzzle.mk [[1, 2, 3], [4, 5, 6], [7, 8, 0]]).size - 1 - 2)) %
            2 = 0))) := by
  refine ⟨by decide, by decide, by decide, by decide, ?_⟩
  exact claim_C3_solvability_formula
    (Puzzle.mk [[1, 2, 3], [4, 5, 6], [7, 8, 0]]) 2 2 (by decide)
    (by decide) (by decide) (by decide) (by decide)

theorem pyIdx_natCast (len : Nat) (i : Nat) (hi : i < len) :
    Puzzle.pyIdx len (i : Int) = some i := by
  rw [Puzzle.pyIdx, if_pos ⟨Int.natCast_nonneg i, by exact_mod_cast hi⟩]
  rw [Int.toNat_natCast]

theorem pyGet2_natCast (s : List (List Nat)) (i j : Nat) (hi : i < s.length)
    (hj : j < (s.getD i []).length) :
    Puzzle.pyGet2 s (i : Int) (j : Int) = (s.getD i []).getD j 0 := by
  rw [Puzzle.pyGet2]
  rw [pyIdx_natCast s.length i hi]
  simp only []
  rw [pyIdx_natCast _ j hj]

theorem pySet2_natCast (s : List (List Nat)) (i j : Nat) (v : Nat)
    (hi : i < s.length) (hj : j < (s.getD i []).length) :
    Puzzle.pySet2 s (i : Int) (j : Int) v =
      s.set i ((s.getD i []).set j v) := by
  rw [Puzzle.pySet2]
  rw [pyIdx_natCast s.length i hi]
  simp only []
  rw [pyIdx_natCast _ j hj]

theorem getD_set_self {α : Type} {s : List α} {k : Nat} {w : α} (d : α)
    (hk : k < s.length) : (s.set k w).getD k d = w := by
  rw [List.getD_eq_getElem _ d (by simpa using hk)]
  exact List.getElem_set_self _

theorem getD_set_ne {α : Type} {s : List α} {k x : Nat} {w : α} (d : α)
    (hne : x ≠ k) : (s.set k w).getD x d = s.getD x d := by
  by_cases hx : x < s.length
  · rw [List.getD_eq_getElem _ d (by simpa using hx),
      List.getD_eq_getElem _ d hx]
    exact List.getElem_set_ne (fun h => hne h.symm) _
  · rw [List.getD_eq_default _ d (by simpa using Nat.le_of_not_lt hx),
      List.getD_eq_default _ d (Nat.le_of_not_lt hx)]

/-- Row lengths of a square board. -/
theorem row_len {p : Puzzle} (hsq : SquareP p) {i : Nat}
    (hi : i < p.size) : (p.state.getD i []).length = p.size := by
  apply hsq
  rw [List.getD_eq_getElem _ _ hi]
  exact List.getElem_mem hi

/-- The board produced by the double write of `make_move`: the blank cell
receives the neighbour's tile and the neighbour cell receives the blank's
content; everything else is untouched. -/
theorem cellAt_swap (p : Puzzle) (r c nr nc : Nat)
    (hsq : SquareP p) (hr : r < p.size) (hc : c < p.size)
    (hnr : nr < p.size) (hnc : nc < p.size)
    (hdiff : ¬(nr = r ∧ nc = c)) (x y : Nat) :
    Puzzle.cellAt ⟨Puzzle.pySet2 (Puzzle.pySet2 p.state (r : Int) (c : Int)
        (Puzzle.pyGet2 p.state (nr : Int) (nc : Int)))
      (nr : Int) (nc : Int) (Puzzle.pyGet2 p.state (r : Int) (c : Int))⟩
        x y =
      if x = r ∧ y = c then Puzzle.cellAt p nr nc
      else if x = nr ∧ y = nc then Puzzle.cellAt p r c
      else Puzzle.cellAt p x y := by
  have hrlen : ∀ i, i < p.size → (p.state.getD i []).length = p.size :=
    fun i hi => row_len hsq hi
  have hb : Puzzle.pyGet2 p.state (nr : Int) (nc : Int) =
      Puzzle.cellAt p nr nc :=
    pyGet2_natCast p.state nr nc hnr (by rw [hrlen nr hnr]; exact hnc)
  have ha : Puzzle.pyGet2 p.state (r : Int) (c : Int) =
      Puzzle.cellAt p r c :=
    pyGet2_natCast p.state r c hr (by rw [hrlen r hr]; exact hc)
  rw [pySet2_natCast p.state r c _ hr (by rw [hrlen r hr]; exact hc)]
  have hlen1 : (p.state.set r ((p.state.getD r []).set c
      (Puzzle.pyGet2 p.state (nr : Int) (nc : Int)))).length =
      p.size := by
    rw [List.length_set]
    rfl
  have hrow1 : ((p.state.set r ((p.state.getD r []).set c
      (Puzzle.pyGet2 p.state (nr : Int) (nc : Int)))).getD nr []).length =
      p.size := by
    by_cases hnrr : nr = r
    · rw [hnrr, getD_set_self _ hr, List.length_set]
      exact hrlen r hr
    · rw [getD_set_ne _ hnrr]
      exact hrlen nr hnr
  rw [pySet2_natCast _ nr nc _ (by rw [hlen1]; exact hnr)
    (by rw [hrow1]; exact hnc)]
  rw [Puzzle.cellAt]
  by_cases h1 : x = r ∧ y = c
  · rw [if_pos h1, h1.1, h1.2]
    by_cases hnrr : nr = r
    · have hncc : nc ≠ c := fun h => hdiff ⟨hnrr, h⟩
      rw [hnrr] at hb hlen1 hrow1 ⊢
      rw [getD_set_self _ (by rw [hlen1]; exact hr)]
      rw [getD_set_ne _ (fun h => hncc h.symm)]
      rw [getD_set_self _ hr]
      rw [getD_set_self _ (by rw [hrlen r hr]; exact hc)]
      exact hb
    · rw [getD_set_ne _ (fun h => hnrr h.symm)]
      rw [getD_set_self _ hr]
      rw [getD_set_self _ (by rw [hrlen r hr]; exact hc)]
      exact hb
  · rw [if_neg h1]
    by_cases h2 : x = nr ∧ y = nc
    · rw [if_pos h2, h2.1, h2.2]
      rw [getD_set_self _ (by rw [hlen1]; exact hnr)]
      rw [getD_set_self _ (by rw [hrow1]; exact hnc)]
      exact ha
    · rw [if_neg h2]
      by_cases hxnr : x = nr
      · have hyncc : y ≠ nc := fun h => h2 ⟨hxnr, h⟩
        rw [hxnr]
        rw [getD_set_self _ (by rw [hlen1]; exact hnr)]
        rw [getD_set_ne _ hyncc]
        by_cases hnrr : nr = r
        · have hyc : y ≠ c := fun h => h1 ⟨hxnr.trans hnrr, h⟩
          rw [hnrr]
          rw [getD_set_self _ hr]
          rw [getD_set_ne _ hyc]
          rfl
        · rw [getD_set_ne _ hnrr]
          rfl
      · rw [getD_set_ne _ hxnr]
        by_cases hxr : x = r
        · have hyc : y ≠ c := fun h => h1 ⟨hxr, h⟩
          rw [hxr, getD_set_self _ hr, getD_set_ne _ hyc]
          rfl
        · rw [getD_set_ne _ hxr]
          rfl

theorem mem_ite_singleton {P : Prop} [Decidable P] {d s : String} :
    (d ∈ if P then [s] else []) ↔ P ∧ d = s := by
  by_cases h : P <;> simp [h]

/-- Membership in `get_valid_moves`, in terms of the blank position. -/
theorem mem_getValidMoves (p : Puzzle) (d : String) :
    d ∈ Puzzle.getValidMoves p ↔
      ((d = "up" ∧ (Puzzle.findEmpty p).1 > 0) ∨
       (d = "down" ∧ (Puzzle.findEmpty p).1 < (p.size : Int) - 1) ∨
       (d = "left" ∧ (Puzzle.findEmpty p).2 > 0) ∨
       (d = "right" ∧ (Puzzle.findEmpty p).2 < (p.size : Int) - 1)) := by
  rw [Puzzle.getValidMoves]
  simp only [List.mem_append, mem_ite_singleton]
  tauto

/-- On a valid move, `make_move` performs exactly the double write, at the
blank and its neighbour in the move's direction. -/
theorem makeMove_eq_of_valid (p : Puzzle) (d : String) (r c nr nc : Nat)
    (hfe : Puzzle.findEmpty p = ((r : Int), (c : Int)))
    (hd : d ∈ Puzzle.getValidMoves p)
    (hnrc : (if d = "up" then ((r : Int) - 1, (c : Int))
      else if d = "down" then ((r : Int) + 1, (c : Int))
      else if d = "left" then ((r : Int), (c : Int) - 1)
      else ((r : Int), (c : Int) + 1)) = ((nr : Int), (nc : Int))) :
    Puzzle.makeMove p d =
      (true, ⟨Puzzle.pySet2 (Puzzle.pySet2 p.state (r : Int) (c : Int)
          (Puzzle.pyGet2 p.state (nr : Int) (nc : Int)))
        (nr : Int) (nc : Int)
        (Puzzle.pyGet2 p.state (r : Int) (c : Int))⟩) := by
  rw [Puzzle.makeMove, if_neg (not_not_intro hd)]
  simp only [hfe, hnrc]

/-- The blank's neighbour in a move's direction (spec side): the cell the
blank swaps with. -/
def moveTarget (d : String) (r c : Nat) : Nat × Nat :=
  if d = "up" then (r - 1, c)
  else if d = "down" then (r + 1, c)
  else if d = "left" then (r, c - 1)
  else (r, c + 1)

/-- C7: an invalid direction is rejected without touching the board; a
valid one swaps the blank with the adjacent tile in that direction. -/
theorem claim_C7_make_move (p : Puzzle) (d : String) (r c : Nat)
    (hsq : SquareP p) (hr : r < p.size) (hc : c < p.size)
    (hblank : Puzzle.cellAt p r c = 0)
    (huniq : ∀ i, i < p.size → ∀ j, j < p.size →
      Puzzle.cellAt p i j = 0 → i = r ∧ j = c) :
    (d ∉ Puzzle.getValidMoves p → Puzzle.makeMove p d = (false, p)) ∧
    (d ∈ Puzzle.getValidMoves p →
      (Puzzle.makeMove p d).1 = true ∧
      (moveTarget d r c).1 < p.size ∧ (moveTarget d r c).2 < p.size ∧
      ∀ x y : Nat,
        Puzzle.cellAt (Puzzle.makeMove p d).2 x y =
          if x = r ∧ y = c then
            Puzzle.cellAt p (moveTarget d r c).1 (moveTarget d r c).2
          else if x = (moveTarget d r c).1 ∧ y = (moveTarget d r c).2
          then 0
          else Puzzle.cellAt p x y) := by
  have hfe := findEmpty_eq p r c hr hc hblank huniq
  constructor
  · intro h
    rw [Puzzle.makeMove, if_pos h]
  · intro hd
    rcases (mem_getValidMoves p d).mp hd with ⟨hdir, hbound⟩ |
      ⟨hdir, hbound⟩ | ⟨hdir, hbound⟩ | ⟨hdir, hbound⟩
    · subst hdir
      rw [hfe] at hbound
      simp only [gt_iff_lt] at hbound
      have hrpos : 0 < r := by exact_mod_cast hbound
      have hnrc : (if "up" = "up" then ((r : Int) - 1, (c : Int))
          else if "up" = "down" then ((r : Int) + 1, (c : Int))
          else if "up" = "left" then ((r : Int), (c : Int) - 1)
          else ((r : Int), (c : Int) + 1)) =
          (((r - 1 : Nat) : Int), (c : Int)) := by
        rw [if_pos rfl]
        have h5 : ((r : Int) - 1) = ((r - 1 : Nat) : Int) := by omega
        rw [h5]
      have hm := makeMove_eq_of_valid p "up" r c (r - 1) c hfe hd hnrc
      have hmt : moveTarget "up" r c = (r - 1, c) := rfl
      have hsw := cellAt_swap p r c (r - 1) c hsq hr hc (by omega) hc
        (by omega)
      refine ⟨by rw [hm], by rw [hmt]; omega, by rw [hmt]; omega, ?_⟩
      intro x y
      rw [hm, hmt]
      have hsw2 := hsw x y
      rw [hblank] at hsw2
      exact hsw2
    · subst hdir
      rw [hfe] at hbound
      have hrlt : r + 1 < p.size := by
        simp only [] at hbound
        omega
      have hnrc : (if "down" = "up" then ((r : Int) - 1, (c : Int))
          else if "down" = "down" then ((r : Int) + 1, (c : Int))
          else if "down" = "left" then ((r : Int), (c : Int) - 1)
          else ((r : Int), (c : Int) + 1)) =
          (((r + 1 : Nat) : Int), (c : Int)) := by
        rw [if_neg (by decide), if_pos rfl]
        have h5 : ((r : Int) + 1) = ((r + 1 : Nat) : Int) := by omega
        rw [h5]
      have hm := makeMove_eq_of_valid p "down" r c (r + 1) c hfe hd hnrc
      have hmt : moveTarget "down" r c = (r + 1, c) := rfl
      have hsw := cellAt_swap p r c (r + 1) c hsq hr hc hrlt hc
        (by omega)
      refine ⟨by rw [hm], by rw [hmt]; omega, by rw [hmt]; omega, ?_⟩
      intro x y
      rw [hm, hmt]
      have hsw2 := hsw x y
      rw [hblank] at hsw2
      exact hsw2
    · subst hdir
      rw [hfe] at hbound
      simp only [gt_iff_lt] at hbound
      have hcpos : 0 < c := by exact_mod_cast hbound
      have hnrc : (if "left" = "up" then ((r : Int) - 1, (c : Int))
          else if "left" = "down" then ((r : Int) + 1, (c : Int))
          else if "left" = "left" then ((r : Int), (c : Int) - 1)
          else ((r : Int), (c : Int) + 1)) =
          ((r : Int), ((c - 1 : Nat) : Int)) := by
        rw [if_neg (by decide), if_neg (by decide), if_pos rfl]
        have h5 : ((c : Int) - 1) = ((c - 1 : Nat) : Int) := by omega
        rw [h5]
      have hm := makeMove_eq_of_valid p "left" r c r (c - 1) hfe hd hnrc
      have hmt : moveTarget "left" r c = (r, c - 1) := rfl
      have hsw := cellAt_swap p r c r (c - 1) hsq hr hc hr (by omega)
        (by omega)
      refine ⟨by rw [hm], by rw [hmt]; omega, by rw [hmt]; omega, ?_⟩
      intro x y
      rw [hm, hmt]
      have hsw2 := hsw x y
      rw [hblank] at hsw2
      exact hsw2
    · subst hdir
      rw [hfe] at hbound
      have hclt : c + 1 < p.size := by
        simp only [] at hbound
        omega
      have hnrc : (if "right" = "up" then ((r : Int) - 1, (c : Int))
          else if "right" = "down" then ((r : Int) + 1, (c : Int))
          else if "right" = "left" then ((r : Int), (c : Int) - 1)
          else ((r : Int), (c : Int) + 1)) =
          ((r : Int), ((c + 1 : Nat) : Int)) := by
        rw [if_neg (by decide), if_neg (by decide), if_neg (by decide)]
        have h5 : ((c : Int) + 1) = ((c + 1 : Nat) : Int) := by omega
        rw [h5]
      have hm := makeMove_eq_of_valid p "right" r c r (c + 1) hfe hd hnrc
      have hmt : moveTarget "right" r c = (r, c + 1) := rfl
      have hsw := cellAt_swap p r c r (c + 1) hsq hr hc hr hclt
        (by omega)
      refine ⟨by rw [hm], by rw [hmt]; omega, by rw [hmt]; omega, ?_⟩
      intro x y
      rw [hm, hmt]
      have hsw2 := hsw x y
      rw [hblank] at hsw2
      exact hsw2

/-- C7 witness: moving the blank of the solved 3×3 board up. -/
theorem claim_C7_make_move_witness :
    SquareP (Puzzle.mk [[1, 2, 3], [4, 5, 6], [7, 8, 0]]) ∧ 2 < (Puzzle.mk [[1, 2, 3], [4, 5, 6], [7, 8, 0]]).size ∧
    Puzzle.cellAt (Puzzle.mk [[1, 2, 3], [4, 5, 6], [7, 8, 0]]) 2 2 = 0 ∧
    (∀ i, i < (Puzzle.mk [[1, 2, 3], [4, 5, 6], [7, 8, 0]]).size → ∀ j, j < (Puzzle.mk [[1, 2, 3], [4, 5, 6], [7, 8, 0]]).size →
      Puzzle.cellAt (Puzzle.mk [[1, 2, 3], [4, 5, 6], [7, 8, 0]]) i j = 0 → i = 2 ∧ j = 2) ∧
    (("up" ∉ Puzzle.getValidMoves (Puzzle.mk [[1, 2, 3], [4, 5, 6], [7, 8, 0]]) →
      Puzzle.makeMove (Puzzle.mk [[1, 2, 3], [4, 5, 6], [7, 8, 0]]) "up" = (false, Puzzle.mk [[1, 2, 3], [4, 5, 6], [7, 8, 0]])) ∧
    ("up" ∈ Puzzle.getValidMoves (Puzzle.mk [[1, 2, 3], [4, 5, 6], [7, 8, 0]]) →
      (Puzzle.makeMove (Puzzle.mk [[1, 2, 3], [4, 5, 6], [7, 8, 0]]) "up").1 = true ∧
      (moveTarget "up" 2 2).1 < (Puzzle.mk [[1, 2, 3], [4, 5, 6], [7, 8, 0]]).size ∧
      (moveTarget "up" 2 2).2 < (Puzzle.mk [[1, 2, 3], [4, 5, 6], [7, 8, 0]]).size ∧
      ∀ x y : Nat,
        Puzzle.cellAt (Puzzle.makeMove (Puzzle.mk [[1, 2, 3], [4, 5, 6], [7, 8, 0]]) "up").2 x y =
          if x = 2 ∧ y = 2 then
            Puzzle.cellAt (Puzzle.mk [[1, 2, 3], [4, 5, 6], [7, 8, 0]]) (moveTarget "up" 2 2).1
              (moveTarget "up" 2 2).2
          else if x = (moveTarget "up" 2 2).1 ∧
              y = (moveTarget "up" 2 2).2 then 0
          else Puzzle.cellAt (Puzzle.mk [[1, 2, 3], [4, 5, 6], [7, 8, 0]]) x y)) := by
  refine ⟨by decide, by decide, by decide, by decide, ?_⟩
  exact claim_C7_make_move (Puzzle.mk [[1, 2, 3], [4, 5, 6], [7, 8, 0]])
    "up" 2 2 (by decide) (by decide) (by decide) (by decide) (by decide)

end SearchEngine
